import Mathlib

/-!
Verification development for the release reconstruction and version computation
engine of the changes tool (src/changes.py).  The Python classes PreRelease,
Version, Message, Change, Release and the functions parse_message, from_string,
group, group_changes, load_history, calculate_version and the release window
builder of History._load are shallowly embedded as executable Lean definitions.
Python mutation is modelled by explicit state passing, Python assertion failures
and raised ValueErrors by Option results (none means the operation raised).
-/

namespace Changes

/-- Embedding of the Python class PreRelease (src/changes.py).  The field
pfx models the attribute named prefix in the source; didUpdate models the
private flag set by bump. -/
structure PreRelease where
  pfx : String
  version : Nat
  didUpdate : Bool
deriving DecidableEq, Repr

/-- Lexicographic comparison of character lists by code point, the order
Python uses on strings: the first differing character decides, and a strict
initial segment compares below any of its extensions. -/
def charListLt : List Char → List Char → Bool
  | _, [] => false
  | [], _ :: _ => true
  | a :: as, b :: bs =>
    if a.toNat < b.toNat then true
    else if b.toNat < a.toNat then false
    else charListLt as bs

/-- Python less-than on strings. -/
def strLtb (a b : String) : Bool := charListLt a.data b.data

/-- PreRelease.bump: increments the numeric suffix exactly once; a second call
is a no-op because the didUpdate flag is set. -/
def PreRelease.bump (p : PreRelease) : PreRelease :=
  if p.didUpdate then p
  else { p with version := p.version + 1, didUpdate := true }

/-- Python equality of PreRelease values: compares the textual prefix and the
numeric suffix; the didUpdate flag is not compared. -/
def PreRelease.pyEq (a b : PreRelease) : Bool :=
  a.pfx == b.pfx && a.version == b.version

/-- Python less-than of PreRelease values, mirroring the if-chain of
PreRelease.__lt__ in the source. -/
def PreRelease.lt (a b : PreRelease) : Bool :=
  if a.pyEq b then false
  else if strLtb b.pfx a.pfx then false
  else if strLtb a.pfx b.pfx then true
  else if b.version < a.version then false
  else if a.version < b.version then true
  else true

/-- Embedding of the Python class Version (src/changes.py).  pfx models the
attribute named prefix (the scope); the three did flags model the private
bump-suppression flags, which are False at construction. -/
structure Version where
  major : Nat
  minor : Nat
  patch : Nat
  preRelease : Option PreRelease
  pfx : Option String
  didUpdateMajor : Bool
  didUpdateMinor : Bool
  didUpdatePatch : Bool
deriving DecidableEq, Repr

/-- A Version as produced by the Python constructor: all bump flags start
False. -/
def Version.fresh (major minor patch : Nat) (preRelease : Option PreRelease)
    (pfx : Option String) : Version :=
  ⟨major, minor, patch, preRelease, pfx, false, false, false⟩

def Version.is_pre_release (v : Version) : Bool := v.preRelease.isSome

def Version.is_initial_development (v : Version) : Bool := v.major == 0

/-- Version.bump_major.  The Python method asserts that the version is not a
pre-release (a failed assertion is modelled as none), then increments major and
resets minor and patch unless a major bump was already applied. -/
def Version.bump_major (v : Version) : Option Version :=
  if v.preRelease.isSome then none
  else if v.didUpdateMajor then some v
  else some { v with major := v.major + 1, minor := 0, patch := 0,
                     didUpdateMajor := true }

/-- Version.bump_minor: suppressed if a minor or major bump was already
applied. -/
def Version.bump_minor (v : Version) : Option Version :=
  if v.preRelease.isSome then none
  else if v.didUpdateMinor || v.didUpdateMajor then some v
  else some { v with minor := v.minor + 1, patch := 0, didUpdateMinor := true }

/-- Version.bump_patch: suppressed if a patch, minor or major bump was already
applied. -/
def Version.bump_patch (v : Version) : Option Version :=
  if v.preRelease.isSome then none
  else if v.didUpdatePatch || v.didUpdateMinor || v.didUpdateMajor then some v
  else some { v with patch := v.patch + 1, didUpdatePatch := true }

/-- Python equality of optional PreRelease attributes: None equals only None;
two PreRelease objects compare via PreRelease.__eq__. -/
def optPreEq : Option PreRelease → Option PreRelease → Bool
  | none, none => true
  | some a, some b => a.pyEq b
  | _, _ => false

/-- Python equality of the optional prefix strings: None equals only None. -/
def optStrEq : Option String → Option String → Bool
  | none, none => true
  | some a, some b => a == b
  | _, _ => false

/-- Python equality of Version values (Version.__eq__): compares the numeric
components, the pre-release and the prefix; the bump flags are not compared. -/
def Version.pyEq (a b : Version) : Bool :=
  a.major == b.major && a.minor == b.minor && a.patch == b.patch &&
  optPreEq a.preRelease b.preRelease && optStrEq a.pfx b.pfx

/-- The prefix string used in comparisons: Version.__lt__ replaces a None
prefix by the empty string before comparing. -/
def normPfx : Option String → String
  | none => ""
  | some s => s

/-- Python less-than of Version values, mirroring the if-chain of
Version.__lt__ in the source: prefix (None treated as empty string), then
major, minor, patch, then the pre-release (a release sorts above any
pre-release of the same numbers). -/
def Version.lt (a b : Version) : Bool :=
  if a.pyEq b then false
  else if strLtb (normPfx b.pfx) (normPfx a.pfx) then false
  else if strLtb (normPfx a.pfx) (normPfx b.pfx) then true
  else if b.major < a.major then false
  else if a.major < b.major then true
  else if b.minor < a.minor then false
  else if a.minor < b.minor then true
  else if b.patch < a.patch then false
  else if a.patch < b.patch then true
  else
    match a.preRelease, b.preRelease with
    | none, some _ => false
    | some _, none => true
    | some pa, some pb => pa.lt pb
    | none, none => true

/-- Fuelled digit extraction for the decimal rendering: peels the least
significant digit and prepends its character; the fuel (at least the number
itself) makes the recursion structural. -/
def natCharsGo : Nat → Nat → List Char → List Char
  | _, 0, acc => acc
  | 0, Nat.succ _, acc => acc
  | Nat.succ fuel, Nat.succ n, acc =>
    natCharsGo fuel (Nat.succ n / 10) (Nat.digitChar (Nat.succ n % 10) :: acc)

/-- Decimal rendering of a natural number, as Python str does: most significant
digit first, and 0 renders as the single digit 0. -/
def natChars (n : Nat) : List Char :=
  if n = 0 then ['0'] else natCharsGo n n []

/-- Value of a decimal digit character. -/
def digitVal (c : Char) : Nat := c.toNat - 48

/-- Reads a big-endian list of decimal digit characters as a number, as
Python int does on the digit groups captured by the version regex. -/
def digitsToNat (ds : List Char) : Nat :=
  ds.foldl (fun a c => 10 * a + digitVal c) 0

/-- PreRelease.__str__: prefix, then a dot and the numeric suffix when the
suffix is nonzero (Python truthiness of the integer). -/
def PreRelease.strChars (p : PreRelease) : List Char :=
  if p.version ≠ 0 then p.pfx.data ++ '.' :: natChars p.version else p.pfx.data

/-- Version.__str__: major.minor.patch, then a dash and the pre-release when
present.  The prefix is not rendered (only qualifiedString renders it). -/
def Version.strChars (v : Version) : List Char :=
  let base := natChars v.major ++ '.' :: natChars v.minor ++ '.' :: natChars v.patch
  match v.preRelease with
  | some p => base ++ '-' :: p.strChars
  | none => base

/-- Version.qualifiedString: prepends the prefix and an underscore when the
prefix is present and non-empty (Python truthiness of the string). -/
def Version.qualifiedChars (v : Version) : List Char :=
  match v.pfx with
  | some s => if s.data.isEmpty then v.strChars else s.data ++ '_' :: v.strChars
  | none => v.strChars

/-!
Backtracking matcher for the version tag regular expression used by
Version.from_string:

  `^((.+?)_)?(\d+).(\d+).(\d+)(-([A-Za-z]+)(\.(\d+))?)?$`

Each combinator mirrors one regex element together with the order in which the
Python engine tries its alternatives: a greedy quantifier offers the longest
candidate first, a lazy one the shortest, and an optional group offers the
present branch before the absent one; the first alternative whose continuation
succeeds wins.  The dots between the digit groups are unescaped in the source,
so they match any character other than a newline.  The digit class is modelled
as the ASCII decimal digits and the letter class as the ASCII letters, exactly
the characters version tags are made of.
-/

/-- A character matched by an unescaped regex dot: anything but a newline. -/
def anyChar (c : Char) : Bool := c != '\n'

/-- Attempts of a greedy one-or-more quantifier: prefixes of the input of the
given length downwards to one are offered to the continuation, and the first
accepted one wins. -/
def descTries (s : List Char) (k : List Char → List Char → Option α) :
    Nat → Option α
  | 0 => none
  | Nat.succ n =>
    match k (s.take (n + 1)) (s.drop (n + 1)) with
    | some r => some r
    | none => descTries s k n

/-- Greedy match of one or more characters satisfying p at the start of the
input: candidate lengths are tried from the longest run downwards, handing the
captured characters and the remaining input to the continuation. -/
def matchPlusGreedy (p : Char → Bool) (s : List Char)
    (k : List Char → List Char → Option α) : Option α :=
  descTries s k (s.takeWhile p).length

/-- Match of one single character satisfying p. -/
def matchOne (p : Char → Bool) (s : List Char)
    (k : List Char → Option α) : Option α :=
  match s with
  | [] => none
  | c :: rest => if p c then k rest else none

/-- Lazy match of the group matching one-or-more dot characters followed by a
literal underscore: the shortest group is offered first, growing one character
at a time while the continuation fails. -/
def matchScopeLazy (acc : List Char) (s : List Char)
    (k : List Char → List Char → Option α) : Option α :=
  match s with
  | [] => none
  | c :: rest =>
    if anyChar c then
      let acc2 := acc ++ [c]
      let tryHere : Option α :=
        match rest with
        | c2 :: rest2 => if c2 = '_' then k acc2 rest2 else none
        | [] => none
      match tryHere with
      | some r => some r
      | none => matchScopeLazy acc2 rest k
    else none

/-- The optional scope group of the version regex: the present branch is tried
before the absent one (the group quantifier is greedy). -/
def matchScopeOpt (s : List Char)
    (k : Option (List Char) → List Char → Option α) : Option α :=
  match matchScopeLazy [] s (fun g rest => k (some g) rest) with
  | some r => some r
  | none => k none s

/-- The optional dot-and-number group inside the pre-release group. -/
def matchDotNumOpt (s : List Char)
    (k : Option Nat → List Char → Option α) : Option α :=
  let present : Option α :=
    match s with
    | '.' :: rest =>
      matchPlusGreedy Char.isDigit rest (fun ds rest2 => k (some (digitsToNat ds)) rest2)
    | _ => none
  match present with
  | some r => some r
  | none => k none s

/-- The optional pre-release group: a dash, one or more letters, and an
optional numeric suffix; the present branch is tried first. -/
def matchPreOpt (s : List Char)
    (k : Option (List Char × Option Nat) → List Char → Option α) : Option α :=
  let present : Option α :=
    match s with
    | '-' :: rest =>
      matchPlusGreedy Char.isAlpha rest (fun pr rest2 =>
        matchDotNumOpt rest2 (fun num rest3 => k (some (pr, num)) rest3))
    | _ => none
  match present with
  | some r => some r
  | none => k none s

/-- Version.from_string (src/changes.py): matches the whole tag against the
version regex and builds a Version from the captured groups; none models the
raised ValueError when nothing matches.  A missing numeric pre-release suffix
defaults to 0, and the bump flags of a parsed version start False as in the
Python constructor. -/
def fromChars (s : List Char) : Option Version :=
  matchScopeOpt s (fun scopeGroup s1 =>
    matchPlusGreedy Char.isDigit s1 (fun d1 s2 =>
      matchOne anyChar s2 (fun s3 =>
        matchPlusGreedy Char.isDigit s3 (fun d2 s4 =>
          matchOne anyChar s4 (fun s5 =>
            matchPlusGreedy Char.isDigit s5 (fun d3 s6 =>
              matchPreOpt s6 (fun pre s7 =>
                if s7.isEmpty then
                  some ⟨digitsToNat d1, digitsToNat d2, digitsToNat d3,
                        pre.map (fun pn => ⟨String.mk pn.1, pn.2.getD 0, false⟩),
                        scopeGroup.map String.mk, false, false, false⟩
                else none)))))))

/-- The Python signature of Version.from_string also accepts a strip_scope
argument, but the body of the method in src/changes.py never reads it: the
result does not depend on it. -/
def from_string (s : List Char) (stripScope : Option String) : Option Version :=
  fromChars s

/-- The Type enumeration of src/changes.py: conventional commit types, with an
unknown fallback. -/
inductive CommitType where
  | ci
  | documentation
  | feature
  | fix
  | unknown
deriving DecidableEq, Repr

/-- Mapping from a type token to the enumeration, as Type(cc_type): tokens
other than the four known ones raise ValueError, which parse_message turns
into the unknown fallback. -/
def commitTypeOfToken (s : List Char) : Option CommitType :=
  if s = "ci".data then some .ci
  else if s = "docs".data then some .documentation
  else if s = "feat".data then some .feature
  else if s = "fix".data then some .fix
  else none

/-- Embedding of the Python class Message: the parsed form of one commit
subject line. -/
structure Message where
  type : CommitType
  scope : Option (List Char)
  breakingChange : Bool
  description : List Char
deriving DecidableEq, Repr

/-- Python str.strip on a list of characters: whitespace removed from both
ends. -/
def pyStrip (s : List Char) : List Char :=
  ((s.dropWhile Char.isWhitespace).reverse.dropWhile Char.isWhitespace).reverse

/-!
Matcher for the conventional commit regular expression used by parse_message:

  `^(.+?)(\((.+?)\))?(\!)?:(.+)$`

with the same alternative ordering conventions as the version regex above.
-/

/-- Lazy match of the parenthesised scope group: an opening parenthesis, a
lazy one-or-more of dot characters, and a closing parenthesis. -/
def matchParenLazy (acc : List Char) (s : List Char)
    (k : List Char → List Char → Option α) : Option α :=
  match s with
  | [] => none
  | c :: rest =>
    if anyChar c then
      let acc2 := acc ++ [c]
      let tryHere : Option α :=
        match rest with
        | ')' :: rest2 => k acc2 rest2
        | _ => none
      match tryHere with
      | some r => some r
      | none => matchParenLazy acc2 rest k
    else none

/-- The optional scope group of the commit regex. -/
def matchParenOpt (s : List Char)
    (k : Option (List Char) → List Char → Option α) : Option α :=
  let present : Option α :=
    match s with
    | '(' :: rest => matchParenLazy [] rest (fun g rest2 => k (some g) rest2)
    | _ => none
  match present with
  | some r => some r
  | none => k none s

/-- The optional bang group of the commit regex. -/
def matchBangOpt (s : List Char) (k : Bool → List Char → Option α) : Option α :=
  let present : Option α :=
    match s with
    | '!' :: rest => k true rest
    | _ => none
  match present with
  | some r => some r
  | none => k false s

/-- Lazy match of the leading type token: one or more dot characters, tried
shortest first, handing the token and the remaining input on. -/
def matchTypeLazy (acc : List Char) (s : List Char)
    (k : List Char → List Char → Option α) : Option α :=
  match s with
  | [] => none
  | c :: rest =>
    if anyChar c then
      let acc2 := acc ++ [c]
      match k acc2 rest with
      | some r => some r
      | none => matchTypeLazy acc2 rest k
    else none

/-- The whole commit message grammar: type, optional parenthesised scope,
optional bang, a colon, and a non-empty description.  Commit subjects are
single lines, so the final dot-plus-anchor is modelled as the rest of the
input being non-empty and free of newlines. -/
def matchMessage (s : List Char) :
    Option (List Char × Option (List Char) × Bool × List Char) :=
  matchTypeLazy [] s (fun ty s1 =>
    matchParenOpt s1 (fun scope s2 =>
      matchBangOpt s2 (fun bang s3 =>
        match s3 with
        | ':' :: desc =>
          if desc.isEmpty then none
          else if desc.all anyChar then some (ty, scope, bang, desc)
          else none
        | _ => none)))

/-- parse_message (src/changes.py): parsing never fails; a line that does not
match the grammar, or whose type token is unknown, degrades to an unknown
message with the stripped line as description. -/
def parse_message (s : List Char) : Message :=
  match matchMessage s with
  | some (ty, scope, bang, desc) =>
    match commitTypeOfToken ty with
    | some t => ⟨t, scope, bang, pyStrip desc⟩
    | none => ⟨.unknown, none, false, pyStrip s⟩
  | none => ⟨.unknown, none, false, pyStrip s⟩

/-- Embedding of the change objects stored in a release: a Change or Commit of
src/changes.py.  Only the parsed message and the parsed version tags of the
commit are consulted by the engine, so the sha and the raw tag names are
omitted; a ledger Change has no version tags. -/
structure Change where
  message : Message
  versions : List Version
deriving DecidableEq, Repr

/-- Whether the OPERATIONS table maps this commit type to a bump operation
(a non-None entry): only feature and fix do. -/
def opIsSome : CommitType → Bool
  | .feature => true
  | .fix => true
  | _ => false

/-- Embedding of the Python class Release. -/
structure Release where
  version : Option Version
  changes : List Change
  is_released : Bool
deriving DecidableEq, Repr

/-- Release.is_empty: true iff no change maps to a bump operation. -/
def Release.is_empty (r : Release) : Bool :=
  r.changes.all (fun c => !opIsSome c.message.type)

/-- One step of the version replay loop in Release.calculate_version: a
feature or fix change applies bump_major when flagged breaking and its type
bump otherwise; other types are ignored (logged as a warning). -/
def applyChange (v : Version) (c : Change) : Option Version :=
  if opIsSome c.message.type then
    if c.message.breakingChange then v.bump_major
    else
      match c.message.type with
      | .feature => v.bump_minor
      | .fix => v.bump_patch
      | _ => some v
  else some v

/-- The replay loop of Release.calculate_version over an oldest-first list of
changes, threading the evolving version; none propagates a failed bump
assertion. -/
def replay : List Change → Version → Option Version
  | [], v => some v
  | c :: cs, v =>
    match applyChange v c with
    | none => none
    | some w => replay cs w

/-- Stable ascending insertion used to model Python sorted, which orders with
the __lt__ of the elements and keeps the original order of ties. -/
def pyInsertV (x : Version) : List Version → List Version
  | [] => [x]
  | y :: ys => if Version.lt y x then y :: pyInsertV x ys else x :: y :: ys

/-- Python sorted on a list of Versions. -/
def pySortedV (l : List Version) : List Version :=
  l.foldr pyInsertV []

/-- The relevant_pre_release_version helper of Release.calculate_version: the
largest pre-release version among the commit tags whose pre-release prefix
matches the requested one and whose numbers match the computed version. -/
def relevantPreReleaseVersion (pfx : String) (cur : Version) (c : Change) :
    Option Version :=
  let matching := c.versions.filter (fun w =>
    w.is_pre_release &&
    (match w.preRelease with
     | some p => p.pfx == pfx
     | none => false) &&
    cur.major == w.major && cur.minor == w.minor && cur.patch == w.patch)
  (pySortedV matching).getLast?

/-- Embedding of the Python class Group used by the group helper. -/
structure Group where
  identifier : Option Version
  items : List Change
deriving DecidableEq, Repr

/-- Python equality on optional group identifiers: None equals only None. -/
def optVerEq : Option Version → Option Version → Bool
  | none, none => true
  | some a, some b => a.pyEq b
  | _, _ => false

/-- The loop of the group helper: a change with a fresh non-None identifier
opens a new group, every change lands in the current last group. -/
def groupGo (f : Change → Option Version) (cur : Group) :
    List Change → List Group
  | [] => [cur]
  | c :: cs =>
    match f c with
    | some id0 =>
      if optVerEq cur.identifier (some id0) then
        groupGo f { cur with items := cur.items ++ [c] } cs
      else
        cur :: groupGo f ⟨some id0, [c]⟩ cs
    | none => groupGo f { cur with items := cur.items ++ [c] } cs

/-- The group helper of src/changes.py: starts from an anonymous empty group
and drops it afterwards when it stayed empty. -/
def group (f : Change → Option Version) (items : List Change) : List Group :=
  match groupGo f ⟨none, []⟩ items with
  | [] => []
  | g :: gs => if g.items.isEmpty then gs else g :: gs

/-- Release.calculate_version: raises (none) when the baseline is a
pre-release; otherwise replays the changes oldest-first (the stored list is
newest-first) on a copy of the baseline, and in pre-release mode assigns a
pre-release qualifier from the grouping of the changes by their relevant
pre-release tag versions. -/
def calculate_version (r : Release) (prev : Version) (prePfx : Option String) :
    Option Release :=
  if prev.is_pre_release then none
  else
    match replay r.changes.reverse prev with
    | none => none
    | some v =>
      match prePfx with
      | none => some { r with version := some v }
      | some pfx =>
        match (group (relevantPreReleaseVersion pfx v) r.changes.reverse).getLast? with
        | none =>
          some { r with version := some { v with preRelease := some ⟨pfx, 0, false⟩ } }
        | some g =>
          match g.identifier with
          | none =>
            some { r with version := some { v with preRelease := some ⟨pfx, 0, false⟩ } }
          | some idv =>
            match idv.preRelease with
            | none => none
            | some pr =>
              some { r with version := some { v with preRelease := some pr.bump } }

/-- Whether a release carries a pre-release version (Release.is_pre_release;
the releases this is asked of always carry a version). -/
def releaseIsPre (r : Release) : Bool :=
  match r.version with
  | some v => v.is_pre_release
  | none => false

/-- The displacement rule of the release window builder
(version_replaces_release in History._load): a pre-release tag version only
displaces a version-less release that is still empty, and only when
pre-release windows are enabled; a release tag version displaces any release
whose version is None or greater than it. -/
def version_replaces_release (preFlag : Bool) (version : Version)
    (release : Release) : Bool :=
  if version.is_pre_release then
    match release.version with
    | none => release.is_empty && preFlag
    | some _ => false
  else
    match release.version with
    | none => true
    | some rv => Version.lt version rv

/-- State of the release window builder: the full list of releases created so
far and the indices of the currently active ones.  Python mutates shared
Release objects held by both lists; the embedding keeps the objects in the
releases list and lets the active set refer to them by position. -/
structure BuildState where
  releases : List Release
  current : List Nat
deriving Repr

/-- Release at a given index; the indices kept in the active set are always in
range. -/
def getRelease (l : List Release) (i : Nat) : Release :=
  (l.get? i).getD ⟨none, [], false⟩

/-- Replace the release at a given index. -/
def modifyRelease (f : Release → Release) : Nat → List Release → List Release
  | _, [] => []
  | 0, r :: rs => f r :: rs
  | Nat.succ n, r :: rs => r :: modifyRelease f n rs

/-- Processing of one version tag in the builder loop: the displaced releases
leave the active set, and a brand-new released window for the tag version is
appended to both lists. -/
def processVersionTag (preFlag : Bool) (st : BuildState) (cv : Version) :
    BuildState :=
  let kept := st.current.filter
    (fun i => !version_replaces_release preFlag cv (getRelease st.releases i))
  { releases := st.releases ++ [⟨some cv, [], true⟩],
    current := kept ++ [st.releases.length] }

/-- The version tags of a change that the builder looks at: highest first,
keeping release versions and the pre-releases of the configured prefix. -/
def changeVersions (prePfx : String) (c : Change) : List Version :=
  (pySortedV c.versions).reverse.filter (fun v =>
    !v.is_pre_release ||
    (match v.preRelease with
     | some p => p.pfx == prePfx
     | none => false))

/-- Processing of one change in the builder loop: its relevant version tags
update the window structure, then the change is appended to every active
release. -/
def processChange (preFlag : Bool) (prePfx : String) (st : BuildState)
    (c : Change) : BuildState :=
  let st1 := (changeVersions prePfx c).foldl (processVersionTag preFlag) st
  { releases := st1.current.foldl
      (fun rs i => modifyRelease (fun r => { r with changes := r.changes ++ [c] }) i rs)
      st1.releases,
    current := st1.current }

/-- The default version used for the baseline of an untagged history
(Version(0, 0, 0)). -/
def v000 : Version := ⟨0, 0, 0, none, none, false, false, false⟩

/-- Lookup in a Python dict keyed by Versions: scans for the first key equal
in the sense of Version.__eq__. -/
def pvLookup (m : List (Version × Release)) (v : Version) : Option Release :=
  match m with
  | [] => none
  | (k, r) :: rest => if k.pyEq v then some r else pvLookup rest v

/-- Assignment in a Python dict keyed by Versions: overwrites the value at an
existing key in place, otherwise appends the new binding at the end. -/
def pvSet (m : List (Version × Release)) (v : Version) (r : Release) :
    List (Version × Release) :=
  match m with
  | [] => [(v, r)]
  | (k, r0) :: rest =>
    if k.pyEq v then (k, r) :: rest else (k, r0) :: pvSet rest v r

/-- One ledger entry folded into the derived map, as the history merge loop of
History._load does: an existing release at the same Version has the ledger
changes appended to its change list (Release.merge), a missing one is
inserted. -/
def mergeStep (m : List (Version × Release)) (e : Version × Release) :
    List (Version × Release) :=
  match pvLookup m e.1 with
  | some ex => pvSet m e.1 { ex with changes := ex.changes ++ e.2.changes }
  | none => pvSet m e.1 e.2

/-- The history merge loop of History._load over all ledger entries, in the
insertion order of the ledger mapping. -/
def mergeLedger (derived ledger : List (Version × Release)) :
    List (Version × Release) :=
  ledger.foldl mergeStep derived

/-- One release built from one ledger entry by load_history: the declared
change lines are parsed, wrapped as Changes, reversed, and marked released. -/
def ledgerRelease (v : Version) (msgs : List (List Char)) : Release :=
  ⟨some v, (msgs.map (fun m => Change.mk (parse_message m) [])).reverse, true⟩

/-- load_history (src/changes.py), with the already-decoded mapping from tag
strings to change-line lists as input: entries whose version string does not
parse raise (none); entries of a different scope prefix are skipped with a
warning; the rest are keyed by their parsed Version. -/
def load_history (entries : List (List Char × List (List Char)))
    (pfx : Option String) : Option (List (Version × Release)) :=
  go entries []
where
  go : List (List Char × List (List Char)) → List (Version × Release) →
      Option (List (Version × Release))
    | [], acc => some acc
    | (vs, msgs) :: rest, acc =>
      match fromChars vs with
      | none => none
      | some v =>
        if optStrEq v.pfx pfx then go rest (pvSet acc v (ledgerRelease v msgs))
        else go rest acc

/-- Stable descending insertion modelling Python sorted with reverse=True on
releases keyed by their version. -/
def pyInsertRelDesc (x : Release) : List Release → List Release
  | [] => [x]
  | y :: ys =>
    if (match x.version, y.version with
        | some a, some b => Version.lt a b
        | _, _ => false) then
      y :: pyInsertRelDesc x ys
    else x :: y :: ys

/-- Python sorted(..., key=version, reverse=True) on releases; every release
carries a version at this stage. -/
def pySortedRelDesc (l : List Release) : List Release :=
  l.foldr pyInsertRelDesc []

/-- The pure core of History._load after the commits have been fetched: the
release window builder, the head fix-up through calculate_version, the
empty-head drop, the ledger merge, the descending sort and the two filters.
The input list holds the commits newest first, as git log yields them; none
models an exception escaping _load. -/
def historyReleases (preFlag : Bool) (prePfx : String) (skipUnreleased : Bool)
    (allChanges : List Change) (ledger : List (Version × Release)) :
    Option (List Release) :=
  let st := allChanges.foldl (processChange preFlag prePfx)
    ⟨[⟨none, [], false⟩], [0]⟩
  match st.releases with
  | [] => none
  | r0 :: rest =>
    let fixed : Option (List Release) :=
      if r0.version.isNone then
        let prevVersion :=
          match rest.filter (fun r => !releaseIsPre r) with
          | r :: _ => r.version.getD v000
          | [] => v000
        match calculate_version r0 prevVersion
            (if preFlag then some prePfx else none) with
        | none => none
        | some r0' => some (r0' :: rest)
      else some (r0 :: rest)
    match fixed with
    | none => none
    | some releases1 =>
      let releases2 :=
        match releases1 with
        | a :: b :: rs => if a.is_empty then b :: rs else a :: b :: rs
        | l => l
      let byVersion := releases2.foldl
        (fun m r => pvSet m (r.version.getD v000) r) []
      let merged := mergeLedger byVersion ledger
      let sortedRels := pySortedRelDesc (merged.map (fun e => e.2))
      let f1 := sortedRels.filter (fun r => r.is_released || !skipUnreleased)
      some (f1.filter (fun r => !releaseIsPre r || preFlag))

/-- The Sections enumeration of src/changes.py (the ignored section is never
rendered). -/
inductive SectionType where
  | ignore
  | changesSection
  | fixesSection
deriving DecidableEq, Repr

/-- TYPE_TO_SECTION of src/changes.py. -/
def typeToSection : CommitType → SectionType
  | .ci => .ignore
  | .documentation => .ignore
  | .feature => .changesSection
  | .fix => .fixesSection
  | .unknown => .ignore

/-- Embedding of the Python class Section. -/
structure Section where
  type : SectionType
  changes : List Message
deriving DecidableEq, Repr

/-- group_changes (src/changes.py): the messages of the changes, bucketed by
section in iteration order; the output lists the Changes section and then the
Fixes section, each present only when non-empty. -/
def group_changes (changes : List Change) : List Section :=
  let chg := (changes.filter (fun c => typeToSection c.message.type == .changesSection)).map
    (fun c => c.message)
  let fx := (changes.filter (fun c => typeToSection c.message.type == .fixesSection)).map
    (fun c => c.message)
  (if chg.isEmpty then [] else [⟨.changesSection, chg⟩]) ++
  (if fx.isEmpty then [] else [⟨.fixesSection, fx⟩])

/-- Release.sections. -/
def Release.sections (r : Release) : List Section :=
  group_changes r.changes

/-- Modelled from the spec: the markdown templates of the repository are not
under src/, so the rendering order is taken from the specification, which
states that release notes list the changes of a section oldest first, i.e. in
reverse of the stored newest-first order (the ledger lists are pre-reversed so
that rendering restores declaration order). -/
def renderedSection (s : Section) : List Message :=
  s.changes.reverse

/-- The bump dictated by the amended claim C3 for one change: a breaking
feature or fix change applies a major bump, a non-breaking feature a minor
bump, a non-breaking fix a patch bump, and all other types no bump. -/
def claimBumpC3 (v : Version) (c : Change) : Option Version :=
  match c.message.type, c.message.breakingChange with
  | .feature, true => v.bump_major
  | .fix, true => v.bump_major
  | .feature, false => v.bump_minor
  | .fix, false => v.bump_patch
  | _, _ => some v

/-- The oldest-first replay described by the amended claim C3. -/
def claimReplayC3 : List Change → Version → Option Version
  | [], v => some v
  | c :: cs, v =>
    match claimBumpC3 v c with
    | none => none
    | some w => claimReplayC3 cs w

/-! Concrete sample data used by the scenario parts of the claims. -/

/-- The version parsed from the tag 1.0.0. -/
def v100 : Version := ⟨1, 0, 0, none, none, false, false, false⟩

/-- The version parsed from the tag 1.1.0-rc. -/
def v110rc : Version := ⟨1, 1, 0, some ⟨"rc", 0, false⟩, none, false, false, false⟩

/-- An untyped initial commit bearing the tag 1.0.0. -/
def cInit : Change := ⟨parse_message "initial commit".data, [v100]⟩

/-- A first feature commit with no tag. -/
def cFeatOne : Change := ⟨parse_message "feat: one".data, []⟩

/-- A second feature commit with no tag. -/
def cFeatTwo : Change := ⟨parse_message "feat: two".data, []⟩

/-- The second feature commit once the tag 1.1.0-rc has been placed on it. -/
def cFeatTwoTagged : Change := ⟨parse_message "feat: two".data, [v110rc]⟩

/-- A third feature commit with no tag. -/
def cFeatThree : Change := ⟨parse_message "feat: three".data, []⟩

/-!
Claim theorems.
-/

/-- C1: in the release window builder, a non-pre-release tag version displaces
exactly those active releases whose version is null or greater than the tag
version; a pre-release tag version displaces a release exactly when that
release is version-less, still empty, and pre-release inclusion is enabled;
and a pre-release tag version never displaces a release carrying a version. -/
theorem c1_version_replaces_release (preFlag : Bool) (v : Version) (r : Release) :
    (v.is_pre_release = false →
      (version_replaces_release preFlag v r = true ↔
        (r.version = none ∨ ∃ rv, r.version = some rv ∧ Version.lt v rv = true)))
    ∧ (v.is_pre_release = true →
      (version_replaces_release preFlag v r = true ↔
        (r.version = none ∧ r.is_empty = true ∧ preFlag = true)))
    ∧ (v.is_pre_release = true → r.version ≠ none →
        version_replaces_release preFlag v r = false) := by
  refine ⟨fun h => ?_, fun h => ?_, fun h hv => ?_⟩
  · cases hr : r.version <;> simp [version_replaces_release, h, hr]
  · cases hr : r.version <;>
      simp [version_replaces_release, h, hr, Bool.and_eq_true]
  · cases hr : r.version with
    | none => exact absurd hr hv
    | some rv => simp [version_replaces_release, h, hr]

/-- Witness for C1: the pre-release tag 1.1.0-rc displaces the empty
version-less head window when pre-release mode is on. -/
theorem c1_version_replaces_release_witness :
    version_replaces_release true v110rc ⟨none, [], false⟩ = true :=
  ((c1_version_replaces_release true v110rc ⟨none, [], false⟩).2.1 rfl).mpr
    ⟨rfl, rfl, rfl⟩

/-- C2 (amended): for every non-pre-release Version, bump_minor twice equals
bump_minor once; bump_major after bump_minor still applies, provided no major
bump has been applied to the instance yet (on an instance already
major-bumped both calls are no-ops); and after a major bump, minor and patch
bumps leave the version unchanged. -/
theorem c2_bump_idempotence (v : Version) (h : v.preRelease = none) :
    (∃ w, v.bump_minor = some w ∧ w.bump_minor = some w)
    ∧ (v.didUpdateMajor = false →
        ∃ w u, v.bump_minor = some w ∧ w.bump_major = some u ∧
          u.major = v.major + 1 ∧ u.minor = 0 ∧ u.patch = 0)
    ∧ (∀ u, v.bump_major = some u →
        u.bump_minor = some u ∧ u.bump_patch = some u) := by
  refine ⟨?_, fun hM => ?_, fun u hu => ?_⟩
  · by_cases hm : v.didUpdateMinor = true <;>
      by_cases hM : v.didUpdateMajor = true <;>
      simp [Version.bump_minor, h, hm, hM]
  · by_cases hm : v.didUpdateMinor = true <;>
      simp [Version.bump_minor, Version.bump_major, h, hm, hM]
  · by_cases hM : v.didUpdateMajor = true
    · simp [Version.bump_major, h, hM] at hu
      subst hu
      constructor <;> simp [Version.bump_minor, Version.bump_patch, h, hM]
    · simp [Version.bump_major, h, hM] at hu
      subst hu
      constructor <;> simp [Version.bump_minor, Version.bump_patch, h]

/-- Witness for C2: the amended statement instantiated at the fresh version
1.0.0. -/
theorem c2_bump_idempotence_witness :
    (∃ w, Version.bump_minor v100 = some w ∧ w.bump_minor = some w)
    ∧ (v100.didUpdateMajor = false →
        ∃ w u, v100.bump_minor = some w ∧ w.bump_major = some u ∧
          u.major = v100.major + 1 ∧ u.minor = 0 ∧ u.patch = 0)
    ∧ (∀ u, v100.bump_major = some u →
        u.bump_minor = some u ∧ u.bump_patch = some u) :=
  c2_bump_idempotence v100 rfl

/-- C2 counterexample: on an instance that has already received a major bump
(reached from the fresh version 1.0.0 by one bump_major call), bump_minor
followed by bump_major leaves the major number at 2 instead of incrementing
it: the claimed clause that bump_major after bump_minor always increments the
major number fails on such an instance. -/
theorem c2_counterexample :
    ((Version.bump_major ⟨1, 0, 0, none, none, false, false, false⟩).bind
        (fun a => (a.bump_minor).bind Version.bump_major)).map Version.major
      = some 2 ∧
    ((Version.bump_major ⟨1, 0, 0, none, none, false, false, false⟩).bind
        (fun a => (a.bump_minor).bind Version.bump_major)).map Version.major
      ≠ some 3 := by
  constructor <;> decide

/-- C10: the dots of the version regex are unescaped and match any character,
so the non-dotted string 1x2y3 parses successfully to version 1.2.3 with no
prefix instead of raising a parse error. -/
theorem c10_any_separator :
    fromChars "1x2y3".data = some ⟨1, 2, 3, none, none, false, false, false⟩ ∧
    fromChars "1.2.3".data = some ⟨1, 2, 3, none, none, false, false, false⟩ := by
  constructor <;> decide

/-- C8, the code evaluated at the failing input: from_string parses a tag
carrying a foreign scope prefix and returns it as a plain result whatever the
expected scope is; no UnknownScope condition (and no error at all) is
signalled, because the method body never reads its strip_scope argument.  The
repository's own tests expect a raised error here. -/
theorem c8_from_string_ignores_scope :
    from_string "macOS_1.4.6".data none =
        some ⟨1, 4, 6, none, some "macOS", false, false, false⟩ ∧
    from_string "macOS_1.4.6".data (some "something") =
        some ⟨1, 4, 6, none, some "macOS", false, false, false⟩ ∧
    (∀ sc, from_string "macOS_1.4.6".data sc = fromChars "macOS_1.4.6".data) :=
  ⟨by decide, by decide, fun _ => rfl⟩

/-- The replay step of the code coincides with the step of the amended
claim. -/
theorem applyChange_eq_claimBumpC3 (v : Version) (c : Change) :
    applyChange v c = claimBumpC3 v c := by
  rcases c with ⟨⟨t, sc, b, d⟩, vs⟩
  cases t <;> cases b <;> rfl

/-- The replay loop of the code coincides with the replay of the amended
claim. -/
theorem replay_eq_claimReplayC3 (cs : List Change) (v : Version) :
    replay cs v = claimReplayC3 cs v := by
  induction cs generalizing v with
  | nil => rfl
  | cons c cs ih =>
    simp only [replay, claimReplayC3, applyChange_eq_claimBumpC3]
    cases claimBumpC3 v c <;> simp [ih]

/-- C3 (amended): with no pre-release requested, calculate_version replays
the release's changes oldest-first against a copy of the baseline, applying
bump_major to breaking feature and fix changes, bump_minor to non-breaking
features, bump_patch to non-breaking fixes, and nothing to ci, docs and
unknown changes (their breaking flag included); in particular a single change
parsed from fix!: x on baseline 1.0.0 yields 2.0.0. -/
theorem c3_replay_and_bumps (r : Release) (prev : Version)
    (h : prev.is_pre_release = false) :
    calculate_version r prev none =
      (claimReplayC3 r.changes.reverse prev).map
        (fun v => { r with version := some v })
    ∧ ((calculate_version ⟨none, [⟨parse_message "fix!: x".data, []⟩], false⟩
          v100 none).bind Release.version).map Version.major = some 2
    ∧ ((calculate_version ⟨none, [⟨parse_message "fix!: x".data, []⟩], false⟩
          v100 none).bind Release.version).map Version.minor = some 0
    ∧ ((calculate_version ⟨none, [⟨parse_message "fix!: x".data, []⟩], false⟩
          v100 none).bind Release.version).map Version.patch = some 0 := by
  refine ⟨?_, by decide, by decide, by decide⟩
  simp only [calculate_version, h, Bool.false_eq_true, if_false,
    replay_eq_claimReplayC3]
  cases claimReplayC3 r.changes.reverse prev <;> rfl

/-- Witness for C3: the amended statement instantiated at an empty release and
the 1.0.0 baseline. -/
theorem c3_replay_and_bumps_witness :
    calculate_version ⟨none, [], false⟩ v100 none =
      (claimReplayC3 (⟨none, [], false⟩ : Release).changes.reverse v100).map
        (fun v => { (⟨none, [], false⟩ : Release) with version := some v }) :=
  (c3_replay_and_bumps ⟨none, [], false⟩ v100 rfl).1

/-- C3 counterexample: a breaking docs change (docs!: x) does not bump the
major version: the type docs maps to no bump operation, so the replay of the
claim as frozen, which promises a major bump for every breaking change
regardless of type, disagrees with the code at this input (the computed
version stays 1.0.0 rather than 2.0.0). -/
theorem c3_counterexample :
    ((calculate_version ⟨none, [⟨parse_message "docs!: x".data, []⟩], false⟩
        v100 none).bind Release.version).map Version.major = some 1 ∧
    ((calculate_version ⟨none, [⟨parse_message "docs!: x".data, []⟩], false⟩
        v100 none).bind Release.version).map Version.major ≠ some 2 ∧
    (parse_message "docs!: x".data).breakingChange = true := by
  refine ⟨by decide, by decide, by decide⟩

/-- A replay step on a non-pre-release version succeeds and yields a
non-pre-release version: no bump ever sets the pre-release field. -/
theorem applyChange_pre_none (v : Version) (c : Change)
    (h : v.preRelease = none) :
    ∃ w, applyChange v c = some w ∧ w.preRelease = none := by
  rcases c with ⟨⟨t, sc, b, d⟩, vs⟩
  cases t <;> cases b <;>
    by_cases hM : v.didUpdateMajor = true <;>
    by_cases hm : v.didUpdateMinor = true <;>
    by_cases hp : v.didUpdatePatch = true <;>
    simp [applyChange, opIsSome, Version.bump_major, Version.bump_minor,
      Version.bump_patch, h, hM, hm, hp]

/-- The whole replay loop on a non-pre-release baseline succeeds and stays
non-pre-release. -/
theorem replay_pre_none (cs : List Change) (v : Version)
    (h : v.preRelease = none) :
    ∃ w, replay cs v = some w ∧ w.preRelease = none := by
  induction cs generalizing v with
  | nil => exact ⟨v, rfl, h⟩
  | cons c cs ih =>
    obtain ⟨w, hw, hwpre⟩ := applyChange_pre_none v c h
    obtain ⟨u, hu, hupre⟩ := ih w hwpre
    exact ⟨u, by simp [replay, hw, hu], hupre⟩

/-- The last element reported by getLast? belongs to the list. -/
theorem mem_of_getLast? {l : List α} {a : α} (h : l.getLast? = some a) :
    a ∈ l := by
  induction l with
  | nil => simp at h
  | cons x xs ih =>
    cases xs with
    | nil =>
      simp [List.getLast?] at h
      simp [h]
    | cons y ys =>
      rw [List.getLast?_cons_cons] at h
      exact List.mem_cons_of_mem x (ih h)

/-- Membership in a stable insertion comes from the inserted element or the
original list. -/
theorem mem_pyInsertV {a x : Version} {l : List Version}
    (h : a ∈ pyInsertV x l) : a = x ∨ a ∈ l := by
  induction l with
  | nil =>
    simp [pyInsertV] at h
    exact Or.inl h
  | cons y ys ih =>
    simp only [pyInsertV] at h
    by_cases hc : Version.lt y x = true
    · rw [if_pos hc] at h
      rcases List.mem_cons.mp h with h1 | h1
      · exact Or.inr (by simp [h1])
      · rcases ih h1 with h2 | h2
        · exact Or.inl h2
        · exact Or.inr (List.mem_cons_of_mem y h2)
    · rw [if_neg hc] at h
      rcases List.mem_cons.mp h with h1 | h1
      · exact Or.inl h1
      · exact Or.inr h1

/-- Membership in the modelled Python sort implies membership in the input. -/
theorem mem_pySortedV {a : Version} {l : List Version}
    (h : a ∈ pySortedV l) : a ∈ l := by
  induction l with
  | nil => simp [pySortedV] at h
  | cons y ys ih =>
    rcases mem_pyInsertV (l := pySortedV ys) (x := y) h with h1 | h1
    · simp [h1]
    · exact List.mem_cons_of_mem y (ih h1)

/-- A version selected by relevant_pre_release_version is a pre-release. -/
theorem relevant_pre_some {pfx : String} {cur : Version} {c : Change}
    {idv : Version} (h : relevantPreReleaseVersion pfx cur c = some idv) :
    idv.preRelease.isSome = true := by
  unfold relevantPreReleaseVersion at h
  have hmem := mem_pySortedV (mem_of_getLast? h)
  have hp := (List.mem_filter.mp hmem).2
  simp only [Bool.and_eq_true] at hp
  have h5 := hp.1.1.1.1
  simp only [Version.is_pre_release] at h5
  exact h5

/-- Every group produced by the grouping loop either keeps the identifier of
the group it started from or carries the value of the identifying function at
one of the processed changes. -/
theorem groupGo_identifier (f : Change → Option Version) (cur : Group)
    (items : List Change) {g : Group} (h : g ∈ groupGo f cur items) :
    g.identifier = cur.identifier ∨ ∃ c ∈ items, f c = g.identifier := by
  induction items generalizing cur with
  | nil =>
    simp [groupGo] at h
    exact Or.inl (by simp [h])
  | cons c cs ih =>
    simp only [groupGo] at h
    cases hf : f c with
    | none =>
      simp only [hf] at h
      rcases ih _ h with h1 | ⟨c2, hc2, hfc2⟩
      · exact Or.inl h1
      · exact Or.inr ⟨c2, List.mem_cons_of_mem c hc2, hfc2⟩
    | some id0 =>
      simp only [hf] at h
      by_cases he : optVerEq cur.identifier (some id0) = true
      · rw [if_pos he] at h
        rcases ih _ h with h1 | ⟨c2, hc2, hfc2⟩
        · exact Or.inl h1
        · exact Or.inr ⟨c2, List.mem_cons_of_mem c hc2, hfc2⟩
      · rw [if_neg he] at h
        rcases List.mem_cons.mp h with h1 | h1
        · exact Or.inl (by simp [h1])
        · rcases ih _ h1 with h2 | ⟨c2, hc2, hfc2⟩
          · exact Or.inr ⟨c, List.mem_cons_self c cs, by simp [hf, h2]⟩
          · exact Or.inr ⟨c2, List.mem_cons_of_mem c hc2, hfc2⟩

/-- Every identified group delivered by the group helper carries the value of
the identifying function at one of the grouped changes. -/
theorem group_identifier (f : Change → Option Version) (items : List Change)
    {g : Group} (hg : g ∈ group f items) {idv : Version}
    (hid : g.identifier = some idv) : ∃ c ∈ items, f c = some idv := by
  have hg2 : g ∈ groupGo f ⟨none, []⟩ items := by
    unfold group at hg
    cases hgo : groupGo f (⟨none, []⟩ : Group) items with
    | nil => rw [hgo] at hg; simp at hg
    | cons g0 gs =>
      simp only [hgo] at hg
      by_cases he : g0.items.isEmpty = true
      · rw [if_pos he] at hg
        exact List.mem_cons_of_mem g0 hg
      · rw [if_neg he] at hg
        exact hg
  rcases groupGo_identifier f _ items hg2 with h1 | ⟨c, hc, hfc⟩
  · rw [hid] at h1; simp at h1
  · exact ⟨c, hc, by rw [hfc, hid]⟩

/-- C9: every bump operation on a pre-release version fails the precondition
assertion instead of changing the version, and succeeds on a non-pre-release
version; calculate_version fails its precondition exactly when the baseline
is a pre-release, and raises nothing on a non-pre-release baseline. -/
theorem c9_pre_release_preconditions :
    (∀ v : Version, v.preRelease ≠ none →
      v.bump_major = none ∧ v.bump_minor = none ∧ v.bump_patch = none)
    ∧ (∀ v : Version, v.preRelease = none →
      (v.bump_major).isSome = true ∧ (v.bump_minor).isSome = true ∧
      (v.bump_patch).isSome = true)
    ∧ (∀ (r : Release) (prev : Version) (pfx : Option String),
        prev.is_pre_release = true → calculate_version r prev pfx = none)
    ∧ (∀ (r : Release) (prev : Version) (pfx : Option String),
        prev.is_pre_release = false →
        (calculate_version r prev pfx).isSome = true) := by
  refine ⟨fun v h => ?_, fun v h => ?_, fun r prev pfx h => ?_,
    fun r prev pfx h => ?_⟩
  · have hs : v.preRelease.isSome = true := Option.isSome_iff_ne_none.mpr h
    exact ⟨by simp [Version.bump_major, hs], by simp [Version.bump_minor, hs],
      by simp [Version.bump_patch, hs]⟩
  · refine ⟨?_, ?_, ?_⟩ <;>
      [by_cases hM : v.didUpdateMajor = true;
       by_cases hm : (v.didUpdateMinor || v.didUpdateMajor) = true;
       by_cases hp : (v.didUpdatePatch || v.didUpdateMinor || v.didUpdateMajor) = true] <;>
      simp_all [Version.bump_major, Version.bump_minor, Version.bump_patch]
  · simp [calculate_version, h]
  · have hpre : prev.preRelease = none := by
      simpa [Version.is_pre_release, Option.isSome_iff_ne_none] using h
    obtain ⟨w, hw, hwpre⟩ := replay_pre_none r.changes.reverse prev hpre
    unfold calculate_version
    rw [if_neg (by simp [h]), hw]
    cases pfx with
    | none => simp
    | some p =>
      cases hlast : (group (relevantPreReleaseVersion p w) r.changes.reverse).getLast? with
      | none => simp [hlast]
      | some g =>
        cases hid : g.identifier with
        | none => simp [hlast, hid]
        | some idv =>
          have hmem := mem_of_getLast? hlast
          obtain ⟨c, hc, hfc⟩ := group_identifier _ _ hmem hid
          have hps := relevant_pre_some hfc
          cases hpr : idv.preRelease with
          | none => rw [hpr] at hps; simp at hps
          | some pr => simp [hlast, hid, hpr]

/-- Witness for C9: the preconditions evaluated at the pre-release version
1.1.0-rc and the plain version 1.0.0. -/
theorem c9_pre_release_preconditions_witness :
    v110rc.bump_major = none ∧ (v100.bump_major).isSome = true ∧
    calculate_version ⟨none, [], false⟩ v110rc none = none ∧
    (calculate_version ⟨none, [], false⟩ v100 (some "rc")).isSome = true := by
  refine ⟨(c9_pre_release_preconditions.1 v110rc (by decide)).1,
    (c9_pre_release_preconditions.2.1 v100 (by decide)).1,
    c9_pre_release_preconditions.2.2.1 ⟨none, [], false⟩ v110rc none (by decide),
    c9_pre_release_preconditions.2.2.2 ⟨none, [], false⟩ v100 (some "rc") (by decide)⟩

/-- C4: when a pre-release version is requested, after the replay the head's
changes are grouped oldest-first by their latest matching pre-release tag
version; a non-null identity on the most recent group yields that identity's
prefix with the suffix bumped exactly once (PreRelease.bump is idempotent),
otherwise a fresh identity at suffix 0 is used.  In particular, the tag 1.0.0
followed by two feature commits yields 1.1.0-rc, and tagging 1.1.0-rc and
adding one more feature commit yields 1.1.0-rc.1. -/
theorem c4_pre_release_versions (r : Release) (prev : Version) (pfx : String)
    (v : Version) (h : prev.is_pre_release = false)
    (hrep : replay r.changes.reverse prev = some v) :
    (∀ p : PreRelease, p.bump.bump = p.bump)
    ∧ (((group (relevantPreReleaseVersion pfx v) r.changes.reverse).getLast? = none ∨
        (∃ g, (group (relevantPreReleaseVersion pfx v) r.changes.reverse).getLast? =
            some g ∧ g.identifier = none)) →
      calculate_version r prev (some pfx) =
        some { r with version := some { v with preRelease := some ⟨pfx, 0, false⟩ } })
    ∧ (∀ g idv pr,
        (group (relevantPreReleaseVersion pfx v) r.changes.reverse).getLast? = some g →
        g.identifier = some idv → idv.preRelease = some pr →
        calculate_version r prev (some pfx) =
          some { r with version := some { v with preRelease := some pr.bump } })
    ∧ ((historyReleases true "rc" false [cFeatTwo, cFeatOne, cInit] []).bind
        List.head?).bind Release.version =
        some ⟨1, 1, 0, some ⟨"rc", 0, false⟩, none, false, true, false⟩
    ∧ Version.strChars ⟨1, 1, 0, some ⟨"rc", 0, false⟩, none, false, true, false⟩ =
        "1.1.0-rc".data
    ∧ ((historyReleases true "rc" false
        [cFeatThree, cFeatTwoTagged, cFeatOne, cInit] []).bind
        List.head?).bind Release.version =
        some ⟨1, 1, 0, some ⟨"rc", 1, true⟩, none, false, true, false⟩
    ∧ Version.strChars ⟨1, 1, 0, some ⟨"rc", 1, true⟩, none, false, true, false⟩ =
        "1.1.0-rc.1".data := by
  refine ⟨fun p => ?_, fun hcase => ?_, fun g idv pr hlast hid hpr => ?_,
    by decide, by decide, by decide, by decide⟩
  · by_cases hd : p.didUpdate = true <;> simp [PreRelease.bump, hd]
  · unfold calculate_version
    rw [if_neg (by simp [h]), hrep]
    rcases hcase with hnone | ⟨g, hsome, hid⟩
    · simp [hnone]
    · simp [hsome, hid]
  · unfold calculate_version
    rw [if_neg (by simp [h]), hrep]
    simp [hlast, hid, hpr]

/-- Comparison of a character list with itself is never strict. -/
theorem charListLt_irrefl (l : List Char) : charListLt l l = false := by
  induction l with
  | nil => rfl
  | cons a as ih => simp [charListLt, ih]

/-- The modelled string order is asymmetric. -/
theorem charListLt_asymm {a b : List Char} (h : charListLt a b = true) :
    charListLt b a = false := by
  induction a generalizing b with
  | nil =>
    cases b with
    | nil => simp [charListLt] at h
    | cons c cs => rfl
  | cons x xs ih =>
    cases b with
    | nil => simp [charListLt] at h
    | cons y ys =>
      simp only [charListLt] at h ⊢
      by_cases h1 : x.toNat < y.toNat
      · have h2 : ¬ y.toNat < x.toNat := by omega
        simp [h1, h2]
      · by_cases h2 : y.toNat < x.toNat
        · rw [if_neg h1, if_pos h2] at h
          exact absurd h (by simp)
        · rw [if_neg h1, if_neg h2] at h
          simp [h1, h2, ih h]

/-- Characters with equal code points are equal. -/
theorem char_toNat_inj {a b : Char} (h : a.toNat = b.toNat) : a = b := by
  have := congrArg Char.ofNat h
  rwa [Char.ofNat_toNat, Char.ofNat_toNat] at this

/-- Two lists neither of which compares below the other are equal. -/
theorem charListLt_conn {a b : List Char} (h1 : charListLt a b = false)
    (h2 : charListLt b a = false) : a = b := by
  induction a generalizing b with
  | nil =>
    cases b with
    | nil => rfl
    | cons c cs => simp [charListLt] at h1
  | cons x xs ih =>
    cases b with
    | nil => simp [charListLt] at h2
    | cons y ys =>
      simp only [charListLt] at h1 h2
      by_cases hx : x.toNat < y.toNat
      · rw [if_pos hx] at h1
        exact absurd h1 (by simp)
      · by_cases hy : y.toNat < x.toNat
        · rw [if_pos hy] at h2
          exact absurd h2 (by simp)
        · rw [if_neg hx, if_neg hy] at h1
          rw [if_neg hy, if_neg hx] at h2
          have hxy : x = y := char_toNat_inj (by omega)
          rw [hxy, ih h1 h2]

/-- Strings neither of which compares below the other are equal. -/
theorem strLtb_conn {a b : String} (h1 : strLtb a b = false)
    (h2 : strLtb b a = false) : a = b := by
  cases a with
  | mk da =>
    cases b with
    | mk db =>
      have := charListLt_conn (a := da) (b := db) h1 h2
      rw [this]

/-- Python equality of PreRelease values coincides with equality of the
compared fields. -/
theorem preRelease_pyEq_iff {a b : PreRelease} :
    a.pyEq b = true ↔ (a.pfx = b.pfx ∧ a.version = b.version) := by
  simp [PreRelease.pyEq, Bool.and_eq_true]

/-- Python equality of PreRelease values is symmetric. -/
theorem preRelease_pyEq_symm (a b : PreRelease) : a.pyEq b = b.pyEq a := by
  by_cases h : a.pyEq b = true
  · obtain ⟨h1, h2⟩ := preRelease_pyEq_iff.mp h
    rw [h, eq_comm]
    exact preRelease_pyEq_iff.mpr ⟨h1.symm, h2.symm⟩
  · rw [Bool.not_eq_true] at h
    rw [h, eq_comm, Bool.eq_false_iff]
    intro hba
    obtain ⟨h1, h2⟩ := preRelease_pyEq_iff.mp hba
    exact absurd (preRelease_pyEq_iff.mpr ⟨h1.symm, h2.symm⟩) (by simp [h])

/-- Python equality of the optional pre-release attribute coincides with
equality of the compared projections. -/
theorem optPreEq_iff {x y : Option PreRelease} :
    optPreEq x y = true ↔
      x.map (fun p => (p.pfx, p.version)) = y.map (fun p => (p.pfx, p.version)) := by
  cases x <;> cases y <;>
    simp [optPreEq, preRelease_pyEq_iff, Prod.ext_iff]

/-- Python equality of the optional scope coincides with equality. -/
theorem optStrEq_iff {x y : Option String} : optStrEq x y = true ↔ x = y := by
  cases x <;> cases y <;> simp [optStrEq]

/-- Python equality of Versions coincides with equality of the compared
fields. -/
theorem version_pyEq_iff {a b : Version} :
    a.pyEq b = true ↔
      (a.major = b.major ∧ a.minor = b.minor ∧ a.patch = b.patch ∧
       optPreEq a.preRelease b.preRelease = true ∧ a.pfx = b.pfx) := by
  simp only [Version.pyEq, Bool.and_eq_true, optStrEq_iff, beq_iff_eq]
  tauto

/-- Python equality of Versions is symmetric. -/
theorem version_pyEq_symm (a b : Version) : a.pyEq b = b.pyEq a := by
  by_cases h : a.pyEq b = true
  · obtain ⟨h1, h2, h3, h4, h5⟩ := version_pyEq_iff.mp h
    rw [h, eq_comm]
    exact version_pyEq_iff.mpr ⟨h1.symm, h2.symm, h3.symm,
      by rw [optPreEq_iff] at h4 ⊢; exact h4.symm, h5.symm⟩
  · rw [Bool.not_eq_true] at h
    rw [h, eq_comm, Bool.eq_false_iff]
    intro hba
    obtain ⟨h1, h2, h3, h4, h5⟩ := version_pyEq_iff.mp hba
    exact absurd (version_pyEq_iff.mpr ⟨h1.symm, h2.symm, h3.symm,
      by rw [optPreEq_iff] at h4 ⊢; exact h4.symm, h5.symm⟩) (by simp [h])

/-- Exactly one of the three comparisons holds between any two PreRelease
values. -/
theorem preRelease_exactly_one (a b : PreRelease) :
    (a.lt b = true ∧ a.pyEq b = false ∧ b.lt a = false) ∨
    (a.lt b = false ∧ a.pyEq b = true ∧ b.lt a = false) ∨
    (a.lt b = false ∧ a.pyEq b = false ∧ b.lt a = true) := by
  by_cases heq : a.pyEq b = true
  · exact Or.inr (Or.inl ⟨by simp [PreRelease.lt, heq],
      heq, by simp [PreRelease.lt, (preRelease_pyEq_symm a b) ▸ heq]⟩)
  · rw [Bool.not_eq_true] at heq
    have heqba : b.pyEq a = false := (preRelease_pyEq_symm a b) ▸ heq
    by_cases h1 : strLtb a.pfx b.pfx = true
    · have h2 : strLtb b.pfx a.pfx = false := charListLt_asymm h1
      exact Or.inl ⟨by simp [PreRelease.lt, heq, h1, h2], heq,
        by simp [PreRelease.lt, heqba, h1]⟩
    · rw [Bool.not_eq_true] at h1
      by_cases h2 : strLtb b.pfx a.pfx = true
      · exact Or.inr (Or.inr ⟨by simp [PreRelease.lt, heq, h2], heq,
          by simp [PreRelease.lt, heqba, h1, h2]⟩)
      · rw [Bool.not_eq_true] at h2
        have hpfx : a.pfx = b.pfx := strLtb_conn h1 h2
        have hver : a.version ≠ b.version := by
          intro hv
          exact absurd (preRelease_pyEq_iff.mpr ⟨hpfx, hv⟩) (by simp [heq])
        rcases Nat.lt_trichotomy a.version b.version with hv | hv | hv
        · have hv2 : ¬ b.version < a.version := by omega
          exact Or.inl ⟨by simp [PreRelease.lt, heq, h1, h2, hv, hv2], heq,
            by simp [PreRelease.lt, heqba, h1, h2, hv]⟩
        · exact absurd hv hver
        · have hv2 : ¬ a.version < b.version := by omega
          exact Or.inr (Or.inr ⟨by simp [PreRelease.lt, heq, h1, h2, hv, hv2],
            heq, by simp [PreRelease.lt, heqba, h1, h2, hv, hv2]⟩)

/-- A string never compares strictly below itself. -/
theorem strLtb_irrefl (s : String) : strLtb s s = false :=
  charListLt_irrefl s.data

/-- C5 (amended): the comparisons of Version are a strict total order with
Python equality, except on pairs whose prefixes are the None versus
empty-string alias of each other while all other compared components are
equal (there both directions of the strict comparison hold); and a version
with no pre-release qualifier is strictly greater than every pre-release
version with the same prefix and numbers. -/
theorem c5_total_order (a b : Version)
    (h : a.pfx = b.pfx ∨
      ¬(normPfx a.pfx = normPfx b.pfx ∧ a.major = b.major ∧ a.minor = b.minor ∧
        a.patch = b.patch ∧ optPreEq a.preRelease b.preRelease = true)) :
    ((Version.lt a b = true ∧ Version.pyEq a b = false ∧ Version.lt b a = false) ∨
     (Version.lt a b = false ∧ Version.pyEq a b = true ∧ Version.lt b a = false) ∨
     (Version.lt a b = false ∧ Version.pyEq a b = false ∧ Version.lt b a = true))
    ∧ (∀ p, a.preRelease = none → b.preRelease = some p → a.pfx = b.pfx →
        a.major = b.major → a.minor = b.minor → a.patch = b.patch →
        Version.lt b a = true ∧ Version.lt a b = false ∧
        Version.pyEq a b = false) := by
  constructor
  · by_cases hpn : normPfx a.pfx = normPfx b.pfx
    · have hs1 : strLtb (normPfx a.pfx) (normPfx b.pfx) = false := by
        rw [hpn]; exact strLtb_irrefl _
      have hs2 : strLtb (normPfx b.pfx) (normPfx a.pfx) = false := by
        rw [hpn]; exact strLtb_irrefl _
      rcases Nat.lt_trichotomy a.major b.major with hM | hM | hM
      · have hM2 : ¬ b.major < a.major := by omega
        have hne : a.pyEq b = false := by
          rw [Bool.eq_false_iff]
          intro hq
          exact absurd (version_pyEq_iff.mp hq).1 (by omega)
        have hneba : b.pyEq a = false := (version_pyEq_symm a b) ▸ hne
        exact Or.inl ⟨by simp [Version.lt, hne, hs1, hs2, hM, hM2], hne,
          by simp [Version.lt, hneba, hs1, hs2, hM]⟩
      · have hM1 : ¬ a.major < b.major := by omega
        have hM2 : ¬ b.major < a.major := by omega
        rcases Nat.lt_trichotomy a.minor b.minor with hm | hm | hm
        · have hm2 : ¬ b.minor < a.minor := by omega
          have hne : a.pyEq b = false := by
            rw [Bool.eq_false_iff]
            intro hq
            exact absurd (version_pyEq_iff.mp hq).2.1 (by omega)
          have hneba : b.pyEq a = false := (version_pyEq_symm a b) ▸ hne
          exact Or.inl ⟨by simp [Version.lt, hne, hs1, hs2, hM1, hM2, hm, hm2],
            hne, by simp [Version.lt, hneba, hs1, hs2, hM1, hM2, hm]⟩
        · have hm1 : ¬ a.minor < b.minor := by omega
          have hm2 : ¬ b.minor < a.minor := by omega
          rcases Nat.lt_trichotomy a.patch b.patch with hp | hp | hp
          · have hp2 : ¬ b.patch < a.patch := by omega
            have hne : a.pyEq b = false := by
              rw [Bool.eq_false_iff]
              intro hq
              exact absurd (version_pyEq_iff.mp hq).2.2.1 (by omega)
            have hneba : b.pyEq a = false := (version_pyEq_symm a b) ▸ hne
            exact Or.inl ⟨by simp [Version.lt, hne, hs1, hs2, hM1, hM2, hm1, hm2,
              hp, hp2], hne,
              by simp [Version.lt, hneba, hs1, hs2, hM1, hM2, hm1, hm2, hp]⟩
          · have hp1 : ¬ a.patch < b.patch := by omega
            have hp2 : ¬ b.patch < a.patch := by omega
            cases hpa : a.preRelease with
            | none =>
              cases hpb : b.preRelease with
              | none =>
                have hopt : optPreEq a.preRelease b.preRelease = true := by
                  simp [optPreEq, hpa, hpb]
                have hpfx : a.pfx = b.pfx := by
                  rcases h with h | h
                  · exact h
                  · exact absurd ⟨hpn, hM, hm, hp, hopt⟩ h
                have heq : a.pyEq b = true :=
                  version_pyEq_iff.mpr ⟨hM, hm, hp, hopt, hpfx⟩
                have heqba : b.pyEq a = true := (version_pyEq_symm a b) ▸ heq
                exact Or.inr (Or.inl ⟨by simp [Version.lt, heq], heq,
                  by simp [Version.lt, heqba]⟩)
              | some pb =>
                have hne : a.pyEq b = false := by
                  rw [Bool.eq_false_iff]
                  intro hq
                  have := (version_pyEq_iff.mp hq).2.2.2.1
                  rw [hpa, hpb] at this
                  simp [optPreEq] at this
                have hneba : b.pyEq a = false := (version_pyEq_symm a b) ▸ hne
                exact Or.inr (Or.inr ⟨by simp [Version.lt, hne, hs1, hs2, hM1,
                  hM2, hm1, hm2, hp1, hp2, hpa, hpb], hne,
                  by simp [Version.lt, hneba, hs1, hs2, hM1, hM2, hm1, hm2,
                    hp1, hp2, hpa, hpb]⟩)
            | some pa =>
              cases hpb : b.preRelease with
              | none =>
                have hne : a.pyEq b = false := by
                  rw [Bool.eq_false_iff]
                  intro hq
                  have := (version_pyEq_iff.mp hq).2.2.2.1
                  rw [hpa, hpb] at this
                  simp [optPreEq] at this
                have hneba : b.pyEq a = false := (version_pyEq_symm a b) ▸ hne
                exact Or.inl ⟨by simp [Version.lt, hne, hs1, hs2, hM1, hM2, hm1,
                  hm2, hp1, hp2, hpa, hpb], hne,
                  by simp [Version.lt, hneba, hs1, hs2, hM1, hM2, hm1, hm2,
                    hp1, hp2, hpa, hpb]⟩
              | some pb =>
                rcases preRelease_exactly_one pa pb with
                  ⟨hl1, hpe, hl2⟩ | ⟨hl1, hpe, hl2⟩ | ⟨hl1, hpe, hl2⟩
                · have hne : a.pyEq b = false := by
                    rw [Bool.eq_false_iff]
                    intro hq
                    have := (version_pyEq_iff.mp hq).2.2.2.1
                    rw [hpa, hpb] at this
                    simp [optPreEq, hpe] at this
                  have hneba : b.pyEq a = false := (version_pyEq_symm a b) ▸ hne
                  exact Or.inl ⟨by simp [Version.lt, hne, hs1, hs2, hM1, hM2,
                    hm1, hm2, hp1, hp2, hpa, hpb, hl1], hne,
                    by simp [Version.lt, hneba, hs1, hs2, hM1, hM2, hm1, hm2,
                      hp1, hp2, hpa, hpb, hl2]⟩
                · have hopt : optPreEq a.preRelease b.preRelease = true := by
                    simp [optPreEq, hpa, hpb, hpe]
                  have hpfx : a.pfx = b.pfx := by
                    rcases h with h | h
                    · exact h
                    · exact absurd ⟨hpn, hM, hm, hp, hopt⟩ h
                  have heq : a.pyEq b = true :=
                    version_pyEq_iff.mpr ⟨hM, hm, hp, hopt, hpfx⟩
                  have heqba : b.pyEq a = true := (version_pyEq_symm a b) ▸ heq
                  exact Or.inr (Or.inl ⟨by simp [Version.lt, heq], heq,
                    by simp [Version.lt, heqba]⟩)
                · have hne : a.pyEq b = false := by
                    rw [Bool.eq_false_iff]
                    intro hq
                    have := (version_pyEq_iff.mp hq).2.2.2.1
                    rw [hpa, hpb] at this
                    simp [optPreEq, hpe] at this
                  have hneba : b.pyEq a = false := (version_pyEq_symm a b) ▸ hne
                  exact Or.inr (Or.inr ⟨by simp [Version.lt, hne, hs1, hs2, hM1,
                    hM2, hm1, hm2, hp1, hp2, hpa, hpb, hl1], hne,
                    by simp [Version.lt, hneba, hs1, hs2, hM1, hM2, hm1, hm2,
                      hp1, hp2, hpa, hpb, hl2]⟩)
          · have hp1 : ¬ a.patch < b.patch := by omega
            have hne : a.pyEq b = false := by
              rw [Bool.eq_false_iff]
              intro hq
              exact absurd (version_pyEq_iff.mp hq).2.2.1 (by omega)
            have hneba : b.pyEq a = false := (version_pyEq_symm a b) ▸ hne
            exact Or.inr (Or.inr ⟨by simp [Version.lt, hne, hs1, hs2, hM1, hM2,
              hm1, hm2, hp, hp1], hne,
              by simp [Version.lt, hneba, hs1, hs2, hM1, hM2, hm1, hm2, hp,
                hp1]⟩)
        · have hm1 : ¬ a.minor < b.minor := by omega
          have hne : a.pyEq b = false := by
            rw [Bool.eq_false_iff]
            intro hq
            exact absurd (version_pyEq_iff.mp hq).2.1 (by omega)
          have hneba : b.pyEq a = false := (version_pyEq_symm a b) ▸ hne
          exact Or.inr (Or.inr ⟨by simp [Version.lt, hne, hs1, hs2, hM1, hM2,
            hm, hm1], hne,
            by simp [Version.lt, hneba, hs1, hs2, hM1, hM2, hm, hm1]⟩)
      · have hM1 : ¬ a.major < b.major := by omega
        have hne : a.pyEq b = false := by
          rw [Bool.eq_false_iff]
          intro hq
          exact absurd (version_pyEq_iff.mp hq).1 (by omega)
        have hneba : b.pyEq a = false := (version_pyEq_symm a b) ▸ hne
        exact Or.inr (Or.inr ⟨by simp [Version.lt, hne, hs1, hs2, hM, hM1], hne,
          by simp [Version.lt, hneba, hs1, hs2, hM, hM1]⟩)
    · have hne : a.pyEq b = false := by
        rw [Bool.eq_false_iff]
        intro hq
        exact absurd (congrArg normPfx (version_pyEq_iff.mp hq).2.2.2.2) hpn
      have hneba : b.pyEq a = false := (version_pyEq_symm a b) ▸ hne
      by_cases h1 : strLtb (normPfx a.pfx) (normPfx b.pfx) = true
      · have h2 : strLtb (normPfx b.pfx) (normPfx a.pfx) = false :=
          charListLt_asymm h1
        exact Or.inl ⟨by simp [Version.lt, hne, h1, h2], hne,
          by simp [Version.lt, hneba, h1]⟩
      · rw [Bool.not_eq_true] at h1
        by_cases h2 : strLtb (normPfx b.pfx) (normPfx a.pfx) = true
        · exact Or.inr (Or.inr ⟨by simp [Version.lt, hne, h2], hne,
            by simp [Version.lt, hneba, h1, h2]⟩)
        · rw [Bool.not_eq_true] at h2
          exact absurd (strLtb_conn h1 h2) hpn
  · intro p hn hs hpfx hM hm hp
    have hne : a.pyEq b = false := by
      rw [Bool.eq_false_iff]
      intro hq
      have := (version_pyEq_iff.mp hq).2.2.2.1
      rw [hn, hs] at this
      simp [optPreEq] at this
    have hneba : b.pyEq a = false := (version_pyEq_symm a b) ▸ hne
    refine ⟨?_, ?_, hne⟩
    · simp [Version.lt, hneba, hpfx, hM, hm, hp, strLtb_irrefl, hn, hs]
    · simp [Version.lt, hne, hpfx, hM, hm, hp, strLtb_irrefl, hn, hs]

/-- Witness for C5: the amended statement at 0.0.0 and 1.0.0 (equal None
prefixes). -/
theorem c5_total_order_witness :
    ((Version.lt v000 v100 = true ∧ Version.pyEq v000 v100 = false ∧
      Version.lt v100 v000 = false) ∨
     (Version.lt v000 v100 = false ∧ Version.pyEq v000 v100 = true ∧
      Version.lt v100 v000 = false) ∨
     (Version.lt v000 v100 = false ∧ Version.pyEq v000 v100 = false ∧
      Version.lt v100 v000 = true))
    ∧ (∀ p, v000.preRelease = none → v100.preRelease = some p →
        v000.pfx = v100.pfx → v000.major = v100.major →
        v000.minor = v100.minor → v000.patch = v100.patch →
        Version.lt v100 v000 = true ∧ Version.lt v000 v100 = false ∧
        Version.pyEq v000 v100 = false) :=
  c5_total_order v000 v100 (Or.inl rfl)

/-- C5 counterexample: with a null prefix on one side and an empty-string
prefix on the other and all other fields equal, both strict comparisons hold
at once while equality fails, so it is not true that exactly one of the three
relations holds for every pair. -/
theorem c5_counterexample :
    Version.lt ⟨0, 0, 0, none, none, false, false, false⟩
      ⟨0, 0, 0, none, some "", false, false, false⟩ = true ∧
    Version.lt ⟨0, 0, 0, none, some "", false, false, false⟩
      ⟨0, 0, 0, none, none, false, false, false⟩ = true ∧
    Version.pyEq ⟨0, 0, 0, none, none, false, false, false⟩
      ⟨0, 0, 0, none, some "", false, false, false⟩ = false := by
  refine ⟨by decide, by decide, by decide⟩

/-- Unfolding of the fuelled digit extraction against the mathematical digit
expansion, for sufficient fuel. -/
theorem natCharsGo_eq (fuel : Nat) :
    ∀ n acc, n ≤ fuel →
      natCharsGo fuel n acc =
        (Nat.digits 10 n).reverse.map Nat.digitChar ++ acc := by
  induction fuel with
  | zero =>
    intro n acc h
    have : n = 0 := by omega
    subst this
    simp [natCharsGo]
  | succ fuel ih =>
    intro n acc h
    cases n with
    | zero => simp [natCharsGo]
    | succ m =>
      have hdiv : Nat.succ m / 10 ≤ fuel := by
        have := Nat.div_lt_self (Nat.succ_pos m) (by norm_num : 1 < 10)
        omega
      rw [natCharsGo, ih _ _ hdiv,
        Nat.digits_def' (by norm_num : 1 < 10) (Nat.succ_pos m)]
      simp

/-- The decimal rendering agrees with the digit expansion. -/
theorem natChars_eq_digits {n : Nat} (h : n ≠ 0) :
    natChars n = (Nat.digits 10 n).reverse.map Nat.digitChar := by
  rw [natChars, if_neg h, natCharsGo_eq n n [] (Nat.le_refl n), List.append_nil]

/-- The character of a decimal digit is a digit character. -/
theorem digitChar_isDigit {d : Nat} (h : d < 10) :
    (Nat.digitChar d).isDigit = true := by
  interval_cases d <;> decide

/-- The value of the character of a decimal digit. -/
theorem digitVal_digitChar {d : Nat} (h : d < 10) :
    digitVal (Nat.digitChar d) = d := by
  interval_cases d <;> decide

/-- Every character of a decimal rendering is a digit character. -/
theorem mem_natChars_isDigit {n : Nat} {c : Char} (hc : c ∈ natChars n) :
    c.isDigit = true := by
  by_cases h : n = 0
  · subst h
    simp [natChars] at hc
    subst hc
    decide
  · rw [natChars_eq_digits h] at hc
    obtain ⟨d, hd, hdc⟩ := List.mem_map.mp hc
    rw [← hdc]
    exact digitChar_isDigit
      (Nat.digits_lt_base (by norm_num) (List.mem_reverse.mp hd))

/-- A decimal rendering is never empty. -/
theorem natChars_ne_nil (n : Nat) : natChars n ≠ [] := by
  by_cases h : n = 0
  · subst h; simp [natChars]
  · rw [natChars_eq_digits h]
    simp [Nat.digits_ne_nil_iff_ne_zero.mpr h]

/-- Folding the decimal digits of a number big-endian recovers the number. -/
theorem foldl_digits (L : List Nat) (hL : ∀ d ∈ L, d < 10) :
    List.foldl (fun a c => 10 * a + digitVal c) 0
      (L.reverse.map Nat.digitChar) = Nat.ofDigits 10 L := by
  induction L with
  | nil => simp [Nat.ofDigits]
  | cons d t ih =>
    have ht : ∀ x ∈ t, x < 10 := fun x hx => hL x (List.mem_cons_of_mem d hx)
    rw [List.reverse_cons, List.map_append, List.foldl_append, ih ht]
    simp [Nat.ofDigits_cons, digitVal_digitChar (hL d (List.mem_cons_self d t))]
    ring

/-- Parsing the decimal rendering of a number recovers the number. -/
theorem digitsToNat_natChars (n : Nat) : digitsToNat (natChars n) = n := by
  by_cases h : n = 0
  · subst h; decide
  · rw [natChars_eq_digits h]
    unfold digitsToNat
    rw [foldl_digits _ (fun d hd => Nat.digits_lt_base (by norm_num) hd),
      Nat.ofDigits_digits]

/-- On input without an underscore the lazy scope matcher always fails. -/
theorem matchScopeLazy_none {α : Type} (s : List Char) (h : '_' ∉ s) :
    ∀ (acc : List Char) (k : List Char → List Char → Option α),
      matchScopeLazy acc s k = none := by
  induction s with
  | nil => intro acc k; rfl
  | cons c rest ih =>
    intro acc k
    have hrest : '_' ∉ rest := fun hm => h (List.mem_cons_of_mem c hm)
    by_cases hc : anyChar c = true
    · have htry :
          (match rest with
           | c2 :: rest2 => if c2 = '_' then k (acc ++ [c]) rest2 else none
           | [] => (none : Option α)) = none := by
        cases rest with
        | nil => rfl
        | cons c2 rest2 =>
          have : c2 ≠ '_' := by
            intro he
            exact hrest (by simp [he])
          simp [this]
      simp [matchScopeLazy, hc, htry, ih hrest]
    · simp [matchScopeLazy, hc]

/-- Without an underscore in the input, the optional scope group falls to the
absent branch. -/
theorem matchScopeOpt_skip {α : Type} (s : List Char) (h : '_' ∉ s)
    (k : Option (List Char) → List Char → Option α) :
    matchScopeOpt s k = k none s := by
  unfold matchScopeOpt
  rw [matchScopeLazy_none s h]

/-- Accepting the longest candidate short-circuits the descending search. -/
theorem descTries_of_length {α : Type} (D rest : List Char)
    (k : List Char → List Char → Option α) (r : α) (hne : D ≠ [])
    (hk : k D rest = some r) : descTries (D ++ rest) k D.length = some r := by
  cases hD : D.length with
  | zero => exact absurd (List.eq_nil_of_length_eq_zero hD) hne
  | succ n =>
    have ht : (D ++ rest).take (n + 1) = D := by
      rw [← hD]; exact List.take_left D rest
    have hd : (D ++ rest).drop (n + 1) = rest := by
      rw [← hD]; exact List.drop_left D rest
    simp [descTries, ht, hd, hk]

/-- The run of characters satisfying p stops exactly at the end of an
all-satisfying block when the remainder starts with a failing character. -/
theorem takeWhile_all_append (p : Char → Bool) (D rest : List Char)
    (hall : ∀ c ∈ D, p c = true)
    (hrest : ∀ c, rest.head? = some c → p c = false) :
    (D ++ rest).takeWhile p = D := by
  induction D with
  | nil =>
    cases rest with
    | nil => rfl
    | cons c rest2 => simp [List.takeWhile, hrest c rfl]
  | cons d D2 ih =>
    have hd : p d = true := hall d (List.mem_cons_self d D2)
    simp [List.takeWhile, hd,
      ih (fun c hc => hall c (List.mem_cons_of_mem d hc))]

/-- A greedy one-or-more match whose maximal run is immediately accepted by
the continuation returns that acceptance. -/
theorem matchPlusGreedy_exact {α : Type} (p : Char → Bool) (D rest : List Char)
    (k : List Char → List Char → Option α) (r : α) (hne : D ≠ [])
    (hall : ∀ c ∈ D, p c = true)
    (hrest : ∀ c, rest.head? = some c → p c = false)
    (hk : k D rest = some r) : matchPlusGreedy p (D ++ rest) k = some r := by
  unfold matchPlusGreedy
  rw [takeWhile_all_append p D rest hall hrest]
  exact descTries_of_length D rest k r hne hk

/-- The pre-release group matcher on empty input takes the absent branch. -/
theorem matchPreOpt_nil {α : Type}
    (k : Option (List Char × Option Nat) → List Char → Option α) :
    matchPreOpt [] k = k none [] := rfl

/-- The pre-release group matcher on a dash followed by a bare letter run. -/
theorem matchPreOpt_alpha {α : Type} (P : List Char)
    (k : Option (List Char × Option Nat) → List Char → Option α) (r : α)
    (hne : P ≠ []) (hall : ∀ c ∈ P, c.isAlpha = true)
    (hk : k (some (P, none)) [] = some r) :
    matchPreOpt ('-' :: P) k = some r := by
  unfold matchPreOpt
  have hmain : matchPlusGreedy Char.isAlpha P
      (fun pr rest2 => matchDotNumOpt rest2
        (fun num rest3 => k (some (pr, num)) rest3)) = some r := by
    have := matchPlusGreedy_exact Char.isAlpha P []
      (fun pr rest2 => matchDotNumOpt rest2
        (fun num rest3 => k (some (pr, num)) rest3)) r hne hall
      (fun c hc => by simp at hc) (by exact hk)
    simpa using this
  simp [hmain]

/-- The pre-release group matcher on a dash, a letter run, a dot and a digit
run. -/
theorem matchPreOpt_alpha_num {α : Type} (P D : List Char)
    (k : Option (List Char × Option Nat) → List Char → Option α) (r : α)
    (hneP : P ≠ []) (hallP : ∀ c ∈ P, c.isAlpha = true)
    (hneD : D ≠ []) (hallD : ∀ c ∈ D, c.isDigit = true)
    (hk : k (some (P, some (digitsToNat D))) [] = some r) :
    matchPreOpt ('-' :: (P ++ '.' :: D)) k = some r := by
  unfold matchPreOpt
  have hmain : matchPlusGreedy Char.isAlpha (P ++ '.' :: D)
      (fun pr rest2 => matchDotNumOpt rest2
        (fun num rest3 => k (some (pr, num)) rest3)) = some r := by
    apply matchPlusGreedy_exact Char.isAlpha P ('.' :: D) _ r hneP hallP
    · intro c hc
      cases hc
      decide
    · show matchDotNumOpt ('.' :: D)
        (fun num rest3 => k (some (P, num)) rest3) = some r
      unfold matchDotNumOpt
      have hinner : matchPlusGreedy Char.isDigit D
          (fun ds rest2 => k (some (P, some (digitsToNat ds))) rest2) =
            some r := by
        have := matchPlusGreedy_exact Char.isDigit D []
          (fun ds rest2 => k (some (P, some (digitsToNat ds))) rest2) r hneD
          hallD (fun c hc => by simp at hc) (by exact hk)
        simpa using this
      simp [hinner]
  simp [hmain]

/-- No character of a version rendering with an alphabetic pre-release prefix
is an underscore. -/
theorem strChars_no_underscore (v : Version)
    (h2 : ∀ p, v.preRelease = some p → ∀ c ∈ p.pfx.data, c.isAlpha = true) :
    '_' ∉ v.strChars := by
  intro hmem
  have hdigit : ∀ n, '_' ∈ natChars n → False := by
    intro n hn
    exact absurd (mem_natChars_isDigit hn) (by decide)
  have hbase : '_' ∉ natChars v.major ++ '.' :: natChars v.minor ++
      '.' :: natChars v.patch := by
    intro h
    rcases List.mem_append.mp h with h | h
    · rcases List.mem_append.mp h with h | h
      · exact hdigit _ h
      · rcases List.mem_cons.mp h with h | h
        · exact absurd h (by decide)
        · exact hdigit _ h
    · rcases List.mem_cons.mp h with h | h
      · exact absurd h (by decide)
      · exact hdigit _ h
  cases hpre : v.preRelease with
  | none =>
    simp only [Version.strChars, hpre] at hmem
    exact hbase hmem
  | some p =>
    simp only [Version.strChars, hpre] at hmem
    rcases List.mem_append.mp hmem with h | h
    · exact hbase h
    rcases List.mem_cons.mp h with h | h
    · exact absurd h (by decide)
    unfold PreRelease.strChars at h
    by_cases hv : p.version ≠ 0
    · rw [if_pos hv] at h
      rcases List.mem_append.mp h with h | h
      · exact absurd (h2 p hpre '_' h) (by decide)
      rcases List.mem_cons.mp h with h | h
      · exact absurd h (by decide)
      exact hdigit _ h
    · rw [if_neg hv] at h
      exact absurd (h2 p hpre '_' h) (by decide)

/-- Heads of the separators and of the remainders following a digit run in a
version rendering are never digit characters. -/
theorem head_dot_not_digit (x : List Char) :
    ∀ c, (('.' :: x).head? = some c) → c.isDigit = false := by
  intro c hc
  cases hc
  decide

/-- The dash head following the patch run is not a digit character. -/
theorem head_dash_not_digit (x : List Char) :
    ∀ c, (('-' :: x).head? = some c) → c.isDigit = false := by
  intro c hc
  cases hc
  decide

/-- Nothing follows the final digit run of a plain version rendering. -/
theorem head_nil_not_digit :
    ∀ c : Char, (([] : List Char).head? = some c) → c.isDigit = false := by
  intro c hc
  simp at hc

/-- C6 (amended): for every Version with no prefix whose pre-release prefix,
when present, is a non-empty string of ASCII letters, parsing the string
rendering round-trips up to Python equality: from_string(str(v)) == v.  (The
claim's exclusion of qualified-prefix forms is kept; versions whose
pre-release prefix falls outside the letters-only tag grammar are additionally
excluded, as parsing their rendering raises.) -/
theorem c6_round_trip (v : Version) (h1 : v.pfx = none)
    (h2 : ∀ p, v.preRelease = some p →
      p.pfx.data ≠ [] ∧ ∀ c ∈ p.pfx.data, c.isAlpha = true) :
    ∃ w, fromChars v.strChars = some w ∧ w.pyEq v = true := by
  have hno : '_' ∉ v.strChars :=
    strChars_no_underscore v (fun p hp => (h2 p hp).2)
  have hdot : anyChar '.' = true := rfl
  cases hpre : v.preRelease with
  | none =>
    refine ⟨⟨digitsToNat (natChars v.major), digitsToNat (natChars v.minor),
      digitsToNat (natChars v.patch), none, none, false, false, false⟩, ?_, ?_⟩
    · unfold fromChars
      rw [matchScopeOpt_skip _ hno]
      have hshape : v.strChars = natChars v.major ++
          ('.' :: (natChars v.minor ++ ('.' :: (natChars v.patch ++ [])))) := by
        simp [Version.strChars, hpre]
      rw [hshape]
      apply matchPlusGreedy_exact _ _ _ _ _ (natChars_ne_nil _)
        (fun c hc => mem_natChars_isDigit hc) (head_dot_not_digit _)
      simp only [matchOne, hdot, if_true]
      apply matchPlusGreedy_exact _ _ _ _ _ (natChars_ne_nil _)
        (fun c hc => mem_natChars_isDigit hc) (head_dot_not_digit _)
      simp only [matchOne, hdot, if_true]
      apply matchPlusGreedy_exact _ _ _ _ _ (natChars_ne_nil _)
        (fun c hc => mem_natChars_isDigit hc) head_nil_not_digit
      rfl
    · refine version_pyEq_iff.mpr ⟨digitsToNat_natChars v.major,
        digitsToNat_natChars v.minor, digitsToNat_natChars v.patch, ?_, ?_⟩
      · simp [optPreEq, hpre]
      · rw [h1]
  | some p =>
    obtain ⟨hPne, hPalpha⟩ := h2 p hpre
    by_cases hv : p.version = 0
    · refine ⟨⟨digitsToNat (natChars v.major), digitsToNat (natChars v.minor),
        digitsToNat (natChars v.patch), some ⟨String.mk p.pfx.data, 0, false⟩,
        none, false, false, false⟩, ?_, ?_⟩
      · unfold fromChars
        rw [matchScopeOpt_skip _ hno]
        have hshape : v.strChars = natChars v.major ++
            ('.' :: (natChars v.minor ++
              ('.' :: (natChars v.patch ++ ('-' :: p.pfx.data))))) := by
          simp [Version.strChars, PreRelease.strChars, hpre, hv]
        rw [hshape]
        apply matchPlusGreedy_exact _ _ _ _ _ (natChars_ne_nil _)
          (fun c hc => mem_natChars_isDigit hc) (head_dot_not_digit _)
        simp only [matchOne, hdot, if_true]
        apply matchPlusGreedy_exact _ _ _ _ _ (natChars_ne_nil _)
          (fun c hc => mem_natChars_isDigit hc) (head_dot_not_digit _)
        simp only [matchOne, hdot, if_true]
        apply matchPlusGreedy_exact _ _ _ _ _ (natChars_ne_nil _)
          (fun c hc => mem_natChars_isDigit hc) (head_dash_not_digit _)
        exact matchPreOpt_alpha p.pfx.data _ _ hPne hPalpha rfl
      · refine version_pyEq_iff.mpr ⟨digitsToNat_natChars v.major,
          digitsToNat_natChars v.minor, digitsToNat_natChars v.patch, ?_, ?_⟩
        · simp only [optPreEq, hpre]
          exact preRelease_pyEq_iff.mpr ⟨rfl, hv.symm⟩
        · rw [h1]
    · refine ⟨⟨digitsToNat (natChars v.major), digitsToNat (natChars v.minor),
        digitsToNat (natChars v.patch),
        some ⟨String.mk p.pfx.data, digitsToNat (natChars p.version), false⟩,
        none, false, false, false⟩, ?_, ?_⟩
      · unfold fromChars
        rw [matchScopeOpt_skip _ hno]
        have hshape : v.strChars = natChars v.major ++
            ('.' :: (natChars v.minor ++ ('.' :: (natChars v.patch ++
              ('-' :: (p.pfx.data ++ '.' :: natChars p.version)))))) := by
          simp [Version.strChars, PreRelease.strChars, hpre, hv]
        rw [hshape]
        apply matchPlusGreedy_exact _ _ _ _ _ (natChars_ne_nil _)
          (fun c hc => mem_natChars_isDigit hc) (head_dot_not_digit _)
        simp only [matchOne, hdot, if_true]
        apply matchPlusGreedy_exact _ _ _ _ _ (natChars_ne_nil _)
          (fun c hc => mem_natChars_isDigit hc) (head_dot_not_digit _)
        simp only [matchOne, hdot, if_true]
        apply matchPlusGreedy_exact _ _ _ _ _ (natChars_ne_nil _)
          (fun c hc => mem_natChars_isDigit hc) (head_dash_not_digit _)
        exact matchPreOpt_alpha_num p.pfx.data (natChars p.version) _ _ hPne
          hPalpha (natChars_ne_nil _) (fun c hc => mem_natChars_isDigit hc) rfl
      · refine version_pyEq_iff.mpr ⟨digitsToNat_natChars v.major,
          digitsToNat_natChars v.minor, digitsToNat_natChars v.patch, ?_, ?_⟩
        · simp only [optPreEq, hpre]
          exact preRelease_pyEq_iff.mpr ⟨rfl, digitsToNat_natChars p.version⟩
        · rw [h1]

/-- Witness for C6: the amended statement at the pre-release version
1.1.0-rc. -/
theorem c6_round_trip_witness :
    ∃ w, fromChars v110rc.strChars = some w ∧ w.pyEq v110rc = true :=
  c6_round_trip v110rc rfl
    (fun p hp => by cases hp; exact ⟨by decide, by decide⟩)

/-- C6 counterexample: a Version with no prefix whose pre-release prefix
contains a digit renders as 1.0.0-rc1, which the version grammar rejects, so
from_string raises instead of round-tripping. -/
theorem c6_counterexample :
    fromChars (Version.strChars
      ⟨1, 0, 0, some ⟨"rc1", 0, false⟩, none, false, false, false⟩) = none ∧
    Version.strChars ⟨1, 0, 0, some ⟨"rc1", 0, false⟩, none, false, false,
      false⟩ = "1.0.0-rc1".data := by
  refine ⟨by decide, by decide⟩

/-- Python equality of Versions is reflexive. -/
theorem Version.pyEq_refl (v : Version) : v.pyEq v = true :=
  version_pyEq_iff.mpr ⟨rfl, rfl, rfl, optPreEq_iff.mpr rfl, rfl⟩

/-- Python equality of Versions is transitive. -/
theorem Version.pyEq_trans {a b c : Version} (h1 : a.pyEq b = true)
    (h2 : b.pyEq c = true) : a.pyEq c = true := by
  obtain ⟨m1, n1, p1, o1, f1⟩ := version_pyEq_iff.mp h1
  obtain ⟨m2, n2, p2, o2, f2⟩ := version_pyEq_iff.mp h2
  exact version_pyEq_iff.mpr ⟨m1.trans m2, n1.trans n2, p1.trans p2,
    optPreEq_iff.mpr ((optPreEq_iff.mp o1).trans (optPreEq_iff.mp o2)),
    f1.trans f2⟩

/-- Assigning a key in the modelled dict makes lookups of that key see the
assigned value. -/
theorem pvLookup_pvSet_self (m : List (Version × Release)) (v : Version)
    (r : Release) : pvLookup (pvSet m v r) v = some r := by
  induction m with
  | nil => simp [pvSet, pvLookup, Version.pyEq_refl]
  | cons e rest ih =>
    obtain ⟨k, r0⟩ := e
    by_cases hk : k.pyEq v = true
    · simp [pvSet, pvLookup, hk]
    · simp [pvSet, pvLookup, hk, ih]

/-- Assigning one key leaves lookups of inequal keys unchanged. -/
theorem pvLookup_pvSet_other {w v : Version} (hne : w.pyEq v = false)
    (m : List (Version × Release)) (x : Release) :
    pvLookup (pvSet m w x) v = pvLookup m v := by
  induction m with
  | nil => simp [pvSet, pvLookup, hne]
  | cons e rest ih =>
    obtain ⟨k, r0⟩ := e
    by_cases hk : k.pyEq w = true
    · have hkv : k.pyEq v = false := by
        rw [Bool.eq_false_iff]
        intro hkv
        have habs : w.pyEq v = true :=
          Version.pyEq_trans ((version_pyEq_symm k w) ▸ hk) hkv
        rw [hne] at habs
        cases habs
      simp [pvSet, pvLookup, hk, hkv]
    · simp [pvSet, pvLookup, hk, ih]

/-- One merge step on a foreign key leaves lookups unchanged. -/
theorem mergeStep_lookup_other {e : Version × Release} {v : Version}
    (hne : e.1.pyEq v = false) (m : List (Version × Release)) :
    pvLookup (mergeStep m e) v = pvLookup m v := by
  unfold mergeStep
  cases h0 : pvLookup m e.1 with
  | some ex =>
    simp only [h0]
    exact pvLookup_pvSet_other hne m _
  | none =>
    simp only [h0]
    exact pvLookup_pvSet_other hne m _

/-- A ledger whose keys all differ from a given key leaves lookups of that
key unchanged. -/
theorem mergeLedger_lookup_away (ledger : List (Version × Release)) :
    ∀ (m : List (Version × Release)) (v : Version),
      (∀ e ∈ ledger, e.1.pyEq v = false) →
      pvLookup (mergeLedger m ledger) v = pvLookup m v := by
  induction ledger with
  | nil => intro m v _; rfl
  | cons e rest ih =>
    intro m v h
    have he : e.1.pyEq v = false := h e (List.mem_cons_self e rest)
    have hrest : ∀ e2 ∈ rest, e2.1.pyEq v = false :=
      fun e2 h2 => h e2 (List.mem_cons_of_mem e h2)
    show pvLookup (mergeLedger (mergeStep m e) rest) v = pvLookup m v
    rw [ih _ _ hrest]
    exact mergeStep_lookup_other he m

/-- The merge loop of History._load: a ledger entry whose Version already has
a derived release appends its changes to the end of that release's change
list, and one with no derived release is inserted as given. -/
theorem mergeLedger_spec :
    ∀ (ledger : List (Version × Release)) (v : Version) (r : Release),
      List.Pairwise (fun e1 e2 => e1.1.pyEq e2.1 = false) ledger →
      (v, r) ∈ ledger →
      ∀ derived,
        (∀ ex, pvLookup derived v = some ex →
          pvLookup (mergeLedger derived ledger) v =
            some { ex with changes := ex.changes ++ r.changes })
        ∧ (pvLookup derived v = none →
            pvLookup (mergeLedger derived ledger) v = some r) := by
  intro ledger
  induction ledger with
  | nil => intro v r _ hmem; cases hmem
  | cons e rest ih =>
    intro v r hdk hmem derived
    have hpair := List.pairwise_cons.mp hdk
    rcases List.mem_cons.mp hmem with heq | hmemr
    · subst heq
      have haway : ∀ e2 ∈ rest, e2.1.pyEq v = false := by
        intro e2 h2
        calc e2.1.pyEq v = Version.pyEq v e2.1 := version_pyEq_symm e2.1 v
          _ = false := hpair.1 e2 h2
      constructor
      · intro ex hex
        show pvLookup (mergeLedger (mergeStep derived (v, r)) rest) v = _
        rw [mergeLedger_lookup_away rest _ v haway]
        unfold mergeStep
        simp only [hex]
        exact pvLookup_pvSet_self derived v _
      · intro hex
        show pvLookup (mergeLedger (mergeStep derived (v, r)) rest) v = _
        rw [mergeLedger_lookup_away rest _ v haway]
        unfold mergeStep
        simp only [hex]
        exact pvLookup_pvSet_self derived v r
    · have hone : e.1.pyEq v = false := hpair.1 (v, r) hmemr
      have ihd := ih v r hpair.2 hmemr (mergeStep derived e)
      constructor
      · intro ex hex
        have hex2 : pvLookup (mergeStep derived e) v = some ex := by
          rw [mergeStep_lookup_other hone]
          exact hex
        exact ihd.1 ex hex2
      · intro hex
        have hex2 : pvLookup (mergeStep derived e) v = none := by
          rw [mergeStep_lookup_other hone]
          exact hex
        exact ihd.2 hex2

/-- C7: merging derived releases with a ledger appends the changes of a
ledger entry whose Version already has a derived release to the end of that
release's change list (keeping the ledger's pre-reversed internal order), and
inserts any other ledger entry as a new fully-released release; the ledger
release declaring feat Baz, fix Foo, feat Bar renders as a Changes section
Baz then Bar followed by a Fixes section Foo, in declared order. -/
theorem c7_history_merge (derived ledger : List (Version × Release))
    (hdk : List.Pairwise (fun e1 e2 => e1.1.pyEq e2.1 = false) ledger)
    (v : Version) (r : Release) (hmem : (v, r) ∈ ledger) :
    (∀ ex, pvLookup derived v = some ex →
      pvLookup (mergeLedger derived ledger) v =
        some { ex with changes := ex.changes ++ r.changes })
    ∧ (pvLookup derived v = none →
        pvLookup (mergeLedger derived ledger) v = some r)
    ∧ (∀ (v2 : Version) (msgs : List (List Char)),
        (ledgerRelease v2 msgs).is_released = true)
    ∧ ((ledgerRelease ⟨2, 0, 0, none, none, false, false, false⟩
          ["feat: Baz".data, "fix: Foo".data, "feat: Bar".data]).sections.map
        (fun s => (s.type, (renderedSection s).map (fun msg => msg.description))))
      = [(.changesSection, ["Baz".data, "Bar".data]),
         (.fixesSection, ["Foo".data])] := by
  obtain ⟨hsome, hnone⟩ := mergeLedger_spec ledger v r hdk hmem derived
  exact ⟨hsome, hnone, fun v2 msgs => rfl, by decide⟩

/-- Witness for C7: a one-entry ledger inserted into an empty derived map. -/
theorem c7_history_merge_witness :
    pvLookup (mergeLedger []
      [(⟨2, 0, 0, none, none, false, false, false⟩,
        ledgerRelease ⟨2, 0, 0, none, none, false, false, false⟩
          ["feat: Baz".data, "fix: Foo".data, "feat: Bar".data])])
      ⟨2, 0, 0, none, none, false, false, false⟩ =
      some (ledgerRelease ⟨2, 0, 0, none, none, false, false, false⟩
        ["feat: Baz".data, "fix: Foo".data, "feat: Bar".data]) :=
  (c7_history_merge [] _ (by simp) _ _ (by simp)).2.1 rfl

/-- Witness for C4: the empty head release on the 1.0.0 baseline falls into
the fresh-identity case and gets pre-release rc at suffix 0. -/
theorem c4_pre_release_versions_witness :
    calculate_version ⟨none, [], false⟩ v100 (some "rc") =
      some { (⟨none, [], false⟩ : Release) with
        version := some { v100 with preRelease := some ⟨"rc", 0, false⟩ } } :=
  (c4_pre_release_versions ⟨none, [], false⟩ v100 "rc" v100 rfl rfl).2.1
    (Or.inl rfl)

end Changes
